import Mathlib

/-!
Verification development for the `ers` expression-rewriting library.

The Rust sources are embedded shallowly:
* `Expression` mirrors `src/expression/mod.rs` (the tree model),
* `Binding`, `bind` mirror `src/binding.rs` (the binder),
* `match_expression`, `match_seq`, `match_pattern` mirror `src/matching.rs`
  (the matcher; the `&mut HashMap` threading of the Rust code becomes
  explicit state passing of an association list read through `findB`,
  where the newest entry for a key shadows older ones, exactly the
  extensional content of `HashMap::insert` overwriting),
* `replace_rec`, `replace_all`, `replace_repeated` mirror the rewriter in
  `src/expression/mod.rs`,
* `render` mirrors the `fmt::Debug` implementation and the parser functions
  mirror `src/expression/parser.rs` (with an explicit fuel argument standing
  for the recursion that Rust performs on the shrinking character iterator).
-/

namespace Ers

/-- The `Expression` tree, exactly the seven-variant enum of
`src/expression/mod.rs` (boxed slices / vectors of children become Lean
lists). -/
inductive Expression where
  | List : List Expression → Expression
  | Atom : String → Expression
  | Blank : Expression
  | BlankSeq : Expression
  | BlankNullSeq : Expression
  | Pattern : String → Expression
  | PatternSeq : String → Expression
  | PatternNullSeq : String → Expression

/-- A matched value: either a single expression or a consecutive run of
expressions, mirroring `Binding` of `src/binding.rs` (the Rust borrows
become values). -/
inductive Binding where
  | Expression : Expression → Binding
  | Sequence : List Expression → Binding

/-- The bindings map.  The Rust code uses `HashMap<String, Binding>`;
we model its extensional content as an association list looked up through
`findB`, where the entry closest to the head wins. -/
abbrev Bindings : Type := List (String × Binding)

/-- `HashMap::insert`: the new entry shadows any older entry for the key. -/
def insertB (s : String) (v : Binding) (bs : Bindings) : Bindings :=
  (s, v) :: bs

/-- Map lookup (the newest entry for a key wins). -/
def findB (bs : Bindings) (s : String) : Option Binding :=
  match bs with
  | [] => none
  | (k, v) :: t => if k = s then some v else findB t s

/-- The `for (key, val) in h.iter() { bs.insert(key, val) }` merge loop of
`match_seq`: every entry of `h` overrides `bs`. -/
def mergeB (bs h : Bindings) : Bindings :=
  h ++ bs

mutual

/-- `match_expression` of `src/matching.rs`.  The Rust function mutates
`bs : &mut HashMap` and returns `bool`; here the updated map is returned
alongside the boolean. -/
def match_expression (e p : Expression) (bs : Bindings) : Bool × Bindings :=
  match e, p with
  | _, .Blank => (true, bs)
  | _, .BlankSeq => (true, bs)
  | _, .BlankNullSeq => (true, bs)
  | e, .Pattern s => (true, insertB s (.Expression e) bs)
  | .Atom i, .Atom j => (i == j, bs)
  | .List es, .List ps => match_seq es ps bs
  | _, _ => (false, bs)
termination_by (sizeOf p, 0)

/-- `match_seq` of `src/matching.rs`. -/
def match_seq (es ps : List Expression) (bs : Bindings) : Bool × Bindings :=
  match ps with
  | [] => (es.isEmpty, bs)
  | p0 :: pt =>
    match p0 with
    | .BlankSeq =>
      -- `for i in (1..es.len() + 1)`
      match es with
      | [] => (false, bs)
      | _ :: et => bseqLoop et pt bs
    | .BlankNullSeq =>
      -- `if es.len() == 0 { return true; }` then `for i in (0..es.len() + 1)`
      match es with
      | [] => (true, bs)
      | _ :: _ => bseqLoop es pt bs
    | .PatternSeq s =>
      -- `for i in (1..es.len() + 1)` with a fresh local map per candidate
      match es with
      | [] => (false, bs)
      | e :: et => pseqLoop s [e] et pt bs
    | .PatternNullSeq s =>
      match es with
      | [] => (true, insertB s (.Sequence []) bs)
      | _ :: _ => pseqLoop s [] es pt bs
    | p0 =>
      -- `match_expression(&es[0], &ps[0], bs) && match_seq(&es[1..], &ps[1..], bs)`
      match es with
      | [] => (false, bs)
      | e :: et =>
        let r := match_expression e p0 bs
        if r.1 then match_seq et pt r.2 else (false, r.2)
termination_by (sizeOf ps, 2 * es.length)

/-- The candidate loop of the `BlankSeq`/`BlankNullSeq` arms: try matching
the pattern tail `pt` against `es'`, then against ever shorter suffixes of
`es'` (the wildcard consuming one more element each time), threading the
mutated outer map through failed candidates exactly as the Rust loop does. -/
def bseqLoop (es' pt : List Expression) (bs : Bindings) : Bool × Bindings :=
  let r := match_seq es' pt bs
  if r.1 then (true, r.2)
  else
    match es' with
    | [] => (false, r.2)
    | _ :: rest => bseqLoop rest pt r.2
termination_by (sizeOf pt, 2 * es'.length + 1)

/-- The candidate loop of the `PatternSeq`/`PatternNullSeq` arms: `pre` is
the run consumed so far (`&es[0..i]`), `es'` the remaining suffix.  Each
candidate builds a fresh local map `h` holding only the run binding, and on
success the final local map is merged into the outer map; a failed
candidate's local map is discarded, leaving the outer map untouched. -/
def pseqLoop (s : String) (pre es' pt : List Expression) (bs : Bindings) :
    Bool × Bindings :=
  let h := insertB s (.Sequence pre) []
  let r := match_seq es' pt h
  if r.1 then (true, mergeB bs r.2)
  else
    match es' with
    | [] => (false, bs)
    | e :: rest => pseqLoop s (pre ++ [e]) rest pt bs
termination_by (sizeOf pt, 2 * es'.length + 1)

end

/-- `Match::match_pattern`: run the matcher from an empty map and return the
map on success. -/
def match_pattern (e p : Expression) : Option Bindings :=
  let r := match_expression e p []
  if r.1 then some r.2 else none

/-- Discriminator for the four sequence-variable variants, which
`match_seq` treats specially at the head of a pattern list. -/
@[simp] def isSeqVar : Expression → Bool
  | .BlankSeq => true
  | .BlankNullSeq => true
  | .PatternSeq _ => true
  | .PatternNullSeq _ => true
  | _ => false

section StepLemmas

@[simp] theorem match_expression_blank (e : Expression) (bs : Bindings) :
    match_expression e .Blank bs = (true, bs) := by
  cases e <;> simp [match_expression]

@[simp] theorem match_expression_blankSeq (e : Expression) (bs : Bindings) :
    match_expression e .BlankSeq bs = (true, bs) := by
  cases e <;> simp [match_expression]

@[simp] theorem match_expression_blankNullSeq (e : Expression) (bs : Bindings) :
    match_expression e .BlankNullSeq bs = (true, bs) := by
  cases e <;> simp [match_expression]

@[simp] theorem match_expression_pattern (e : Expression) (s : String)
    (bs : Bindings) :
    match_expression e (.Pattern s) bs = (true, insertB s (.Expression e) bs) := by
  cases e <;> simp [match_expression]

@[simp] theorem match_expression_patternSeq (e : Expression) (s : String)
    (bs : Bindings) :
    match_expression e (.PatternSeq s) bs = (false, bs) := by
  cases e <;> simp [match_expression]

@[simp] theorem match_expression_patternNullSeq (e : Expression) (s : String)
    (bs : Bindings) :
    match_expression e (.PatternNullSeq s) bs = (false, bs) := by
  cases e <;> simp [match_expression]

@[simp] theorem match_expression_atom (i j : String) (bs : Bindings) :
    match_expression (.Atom i) (.Atom j) bs = (i == j, bs) := by
  simp [match_expression]

@[simp] theorem match_expression_list (es ps : List Expression) (bs : Bindings) :
    match_expression (.List es) (.List ps) bs = match_seq es ps bs := by
  simp [match_expression]

@[simp] theorem match_expression_list_atom (es : List Expression) (j : String)
    (bs : Bindings) :
    match_expression (.List es) (.Atom j) bs = (false, bs) := by
  simp [match_expression]

@[simp] theorem match_expression_atom_list (i : String) (ps : List Expression)
    (bs : Bindings) :
    match_expression (.Atom i) (.List ps) bs = (false, bs) := by
  simp [match_expression]

theorem match_expression_atom_fail (e : Expression) (j : String) (bs : Bindings)
    (h : ∀ s, e ≠ .Atom s) :
    match_expression e (.Atom j) bs = (false, bs) := by
  cases e <;> simp_all [match_expression]

theorem match_expression_list_fail (e : Expression) (ps : List Expression)
    (bs : Bindings) (h : ∀ es, e ≠ .List es) :
    match_expression e (.List ps) bs = (false, bs) := by
  cases e <;> simp_all [match_expression]

@[simp] theorem match_seq_nil (es : List Expression) (bs : Bindings) :
    match_seq es [] bs = (es.isEmpty, bs) := by
  cases es <;> simp [match_seq]

@[simp] theorem match_seq_blankSeq_nil (pt : List Expression) (bs : Bindings) :
    match_seq [] (.BlankSeq :: pt) bs = (false, bs) := by
  simp [match_seq]

@[simp] theorem match_seq_blankSeq_cons (e : Expression) (et pt : List Expression)
    (bs : Bindings) :
    match_seq (e :: et) (.BlankSeq :: pt) bs = bseqLoop et pt bs := by
  simp [match_seq]

@[simp] theorem match_seq_blankNullSeq_nil (pt : List Expression) (bs : Bindings) :
    match_seq [] (.BlankNullSeq :: pt) bs = (true, bs) := by
  simp [match_seq]

@[simp] theorem match_seq_blankNullSeq_cons (e : Expression)
    (et pt : List Expression) (bs : Bindings) :
    match_seq (e :: et) (.BlankNullSeq :: pt) bs = bseqLoop (e :: et) pt bs := by
  simp [match_seq]

@[simp] theorem match_seq_patternSeq_nil (s : String) (pt : List Expression)
    (bs : Bindings) :
    match_seq [] (.PatternSeq s :: pt) bs = (false, bs) := by
  simp [match_seq]

@[simp] theorem match_seq_patternSeq_cons (s : String) (e : Expression)
    (et pt : List Expression) (bs : Bindings) :
    match_seq (e :: et) (.PatternSeq s :: pt) bs = pseqLoop s [e] et pt bs := by
  simp [match_seq]

@[simp] theorem match_seq_patternNullSeq_nil (s : String) (pt : List Expression)
    (bs : Bindings) :
    match_seq [] (.PatternNullSeq s :: pt) bs = (true, insertB s (.Sequence []) bs) := by
  simp [match_seq]

@[simp] theorem match_seq_patternNullSeq_cons (s : String) (e : Expression)
    (et pt : List Expression) (bs : Bindings) :
    match_seq (e :: et) (.PatternNullSeq s :: pt) bs = pseqLoop s [] (e :: et) pt bs := by
  simp [match_seq]

@[simp] theorem match_seq_node_nil (p0 : Expression) (pt : List Expression)
    (bs : Bindings) (h : isSeqVar p0 = false) :
    match_seq [] (p0 :: pt) bs = (false, bs) := by
  cases p0 <;> simp_all [match_seq, isSeqVar]

@[simp] theorem match_seq_node_cons (p0 e : Expression) (et pt : List Expression)
    (bs : Bindings) (h : isSeqVar p0 = false) :
    match_seq (e :: et) (p0 :: pt) bs =
      (if (match_expression e p0 bs).1
        then match_seq et pt (match_expression e p0 bs).2
        else (false, (match_expression e p0 bs).2)) := by
  cases p0 <;> simp_all [match_seq, isSeqVar]

theorem bseqLoop_unfold (es' pt : List Expression) (bs : Bindings) :
    bseqLoop es' pt bs =
      (if (match_seq es' pt bs).1 then (true, (match_seq es' pt bs).2)
       else
        match es' with
        | [] => (false, (match_seq es' pt bs).2)
        | _ :: rest => bseqLoop rest pt (match_seq es' pt bs).2) := by
  rw [bseqLoop.eq_def]

theorem pseqLoop_unfold (s : String) (pre es' pt : List Expression)
    (bs : Bindings) :
    pseqLoop s pre es' pt bs =
      (if (match_seq es' pt (insertB s (.Sequence pre) [])).1
        then (true, mergeB bs (match_seq es' pt (insertB s (.Sequence pre) [])).2)
       else
        match es' with
        | [] => (false, bs)
        | e :: rest => pseqLoop s (pre ++ [e]) rest pt bs) := by
  rw [pseqLoop.eq_def]

end StepLemmas

mutual

/-- `Bind::bind` for `Expression` (`src/binding.rs`): substitute bound
atoms; a sequence binding found at a non-list position is wrapped in a
list headed by the sentinel atom `Sequence`. -/
def bind (e : Expression) (bs : Bindings) : Expression :=
  match e with
  | .Atom s =>
    match findB bs s with
    | some (.Sequence seq) => .List (.Atom "Sequence" :: seq)
    | some (.Expression e) => e
    | none => .Atom s
  | .List es => .List (bindList es bs)
  | e => e
termination_by sizeOf e

/-- `Bind::bind` for boxed slices (`src/binding.rs`): children that are
atoms with a sequence binding are spliced elementwise into the parent
list; every other child is bound recursively and kept as one element. -/
def bindList (es : List Expression) (bs : Bindings) : List Expression :=
  match es with
  | [] => []
  | .Atom s :: rest =>
    (match findB bs s with
     | some (.Sequence seq) => seq
     | _ => [bind (.Atom s) bs]) ++ bindList rest bs
  | e :: rest => bind e bs :: bindList rest bs
termination_by sizeOf es

end

@[simp] theorem bind_atom (s : String) (bs : Bindings) :
    bind (.Atom s) bs =
      (match findB bs s with
       | some (.Sequence seq) => .List (.Atom "Sequence" :: seq)
       | some (.Expression e) => e
       | none => .Atom s) := by
  simp [bind]

@[simp] theorem bind_list (es : List Expression) (bs : Bindings) :
    bind (.List es) bs = .List (bindList es bs) := by
  simp [bind]

@[simp] theorem bind_blank (bs : Bindings) : bind .Blank bs = .Blank := by
  simp [bind]

@[simp] theorem bind_blankSeq (bs : Bindings) : bind .BlankSeq bs = .BlankSeq := by
  simp [bind]

@[simp] theorem bind_blankNullSeq (bs : Bindings) :
    bind .BlankNullSeq bs = .BlankNullSeq := by
  simp [bind]

@[simp] theorem bind_pattern (s : String) (bs : Bindings) :
    bind (.Pattern s) bs = .Pattern s := by
  simp [bind]

@[simp] theorem bind_patternSeq (s : String) (bs : Bindings) :
    bind (.PatternSeq s) bs = .PatternSeq s := by
  simp [bind]

@[simp] theorem bind_patternNullSeq (s : String) (bs : Bindings) :
    bind (.PatternNullSeq s) bs = .PatternNullSeq s := by
  simp [bind]

@[simp] theorem bindList_nil (bs : Bindings) : bindList [] bs = [] := by
  simp [bindList]

@[simp] theorem bindList_cons_atom (s : String) (rest : List Expression)
    (bs : Bindings) :
    bindList (.Atom s :: rest) bs =
      (match findB bs s with
       | some (.Sequence seq) => seq
       | _ => [bind (.Atom s) bs]) ++ bindList rest bs := by
  simp [bindList]

@[simp] theorem bindList_cons_nonatom (e : Expression) (rest : List Expression)
    (bs : Bindings) (h : ∀ s, e ≠ .Atom s) :
    bindList (e :: rest) bs = bind e bs :: bindList rest bs := by
  cases e <;> simp_all [bindList]

mutual

/-- `Expression::replace_rec` of `src/expression/mod.rs`: root match first,
on success replace by the bound template without descending further;
otherwise recurse into list children; the boolean reports whether any
replacement occurred. -/
def replace_rec (e : Expression) (pattern : Expression) (template : Expression) :
    Expression × Bool :=
  match match_pattern e pattern, e with
  | some bs, _ => (bind template bs, true)
  | none, .List es =>
    let r := replace_recList es pattern template
    (.List r.1, r.2)
  | none, e => (e, false)
termination_by sizeOf e

/-- The child loop of `replace_rec` (the `for e in es` accumulation over
`v` and `replaced`). -/
def replace_recList (es : List Expression) (pattern : Expression)
    (template : Expression) : List Expression × Bool :=
  match es with
  | [] => ([], false)
  | e :: rest =>
    let r := replace_rec e pattern template
    let rs := replace_recList rest pattern template
    (r.1 :: rs.1, r.2 || rs.2)
termination_by sizeOf es

end

/-- `Expression::replace_all`: run `replace_rec` and drop the flag. -/
def replace_all (e : Expression) (pattern : Expression) (template : Expression) :
    Expression :=
  (replace_rec e pattern template).1

/-- `Expression::replace`: match at the root only; on success return the
bound template. -/
def replace (e : Expression) (pattern : Expression) (template : Expression) :
    Option Expression :=
  (match_pattern e pattern).map fun bs => bind template bs

/-- The `while limit >= 0` loop of `Expression::replace_repeated`.  The
`none` result models the Rust `panic!` that fires once the loop has run
`limit` passes that all reported a change (`limit` counts `1000` down to
`0` inclusive, hence 1001 passes). -/
def rrLoop (fuel : Nat) (e : Expression) (pattern : Expression)
    (template : Expression) : Option Expression :=
  match fuel with
  | 0 => none
  | fuel + 1 =>
    let r := replace_rec e pattern template
    if r.2 then rrLoop fuel r.1 pattern template else some r.1

/-- `Expression::replace_repeated`: iterate `replace_all` to a fixpoint,
with the hardcoded limit of 1000 (1001 loop passes); `none` models the
process-aborting `panic` at the limit. -/
def replace_repeated (e : Expression) (pattern : Expression)
    (template : Expression) : Option Expression :=
  rrLoop 1001 e pattern template

@[simp] theorem replace_rec_matched (e pattern template : Expression)
    (bs : Bindings) (h : match_pattern e pattern = some bs) :
    replace_rec e pattern template = (bind template bs, true) := by
  cases e <;> simp [replace_rec, h]

theorem replace_rec_unmatched_list (es : List Expression)
    (pattern template : Expression)
    (h : match_pattern (.List es) pattern = none) :
    replace_rec (.List es) pattern template =
      ((.List (replace_recList es pattern template).1 : Expression),
        (replace_recList es pattern template).2) := by
  simp [replace_rec, h]

theorem replace_rec_unmatched_leaf (e : Expression)
    (pattern template : Expression)
    (h : match_pattern e pattern = none) (hl : ∀ es, e ≠ .List es) :
    replace_rec e pattern template = (e, false) := by
  cases e <;> simp_all [replace_rec, h]

@[simp] theorem replace_recList_nil (pattern template : Expression) :
    replace_recList [] pattern template = ([], false) := by
  simp [replace_recList]

@[simp] theorem replace_recList_cons (e : Expression) (rest : List Expression)
    (pattern template : Expression) :
    replace_recList (e :: rest) pattern template =
      ((replace_rec e pattern template).1 ::
          (replace_recList rest pattern template).1,
        (replace_rec e pattern template).2 ||
          (replace_recList rest pattern template).2) := by
  simp [replace_recList]

mutual

/-- The `fmt::Debug` rendering of `src/expression/mod.rs`. -/
def render (e : Expression) : String :=
  match e with
  | .Atom s => s
  | .List es => "(" ++ renderList es ++ ")"
  | .Blank => "_"
  | .BlankSeq => "__"
  | .BlankNullSeq => "___"
  | .Pattern s => s ++ "_"
  | .PatternSeq s => s ++ "__"
  | .PatternNullSeq s => s ++ "___"
termination_by sizeOf e

/-- The child loop of the `List` arm of `fmt::Debug`: children joined by a
single space (a space after every child except the last). -/
def renderList (es : List Expression) : String :=
  match es with
  | [] => ""
  | [e] => render e
  | e :: rest => render e ++ " " ++ renderList rest
termination_by sizeOf es

end

@[simp] theorem render_atom (s : String) : render (.Atom s) = s := by
  simp [render]

@[simp] theorem render_list (es : List Expression) :
    render (.List es) = "(" ++ renderList es ++ ")" := by
  simp [render]

@[simp] theorem render_blank : render .Blank = "_" := by simp [render]

@[simp] theorem render_blankSeq : render .BlankSeq = "__" := by simp [render]

@[simp] theorem render_blankNullSeq : render .BlankNullSeq = "___" := by
  simp [render]

@[simp] theorem render_pattern (s : String) : render (.Pattern s) = s ++ "_" := by
  simp [render]

@[simp] theorem render_patternSeq (s : String) :
    render (.PatternSeq s) = s ++ "__" := by
  simp [render]

@[simp] theorem render_patternNullSeq (s : String) :
    render (.PatternNullSeq s) = s ++ "___" := by
  simp [render]

@[simp] theorem renderList_nil : renderList [] = "" := by simp [renderList]

@[simp] theorem renderList_single (e : Expression) : renderList [e] = render e := by
  simp [renderList]

@[simp] theorem renderList_cons (e f : Expression) (rest : List Expression) :
    renderList (e :: f :: rest) = render e ++ " " ++ renderList (f :: rest) := by
  simp [renderList]

/-! The parser of `src/expression/parser.rs`.  The `Parser` struct holds
the lookahead char `ch` and the not-yet-consumed iterator; we model the
state as the lookahead plus the remaining characters. -/

/-- Error codes of `src/expression/parser.rs`. -/
inductive ErrorCode where
  | InvalidPattern : ErrorCode
  | UnbalancedParens : ErrorCode
  | EmptyInput : ErrorCode
deriving DecidableEq, Repr

/-- Error type of `src/expression/parser.rs`. -/
inductive ParserError where
  | SyntaxError : ErrorCode → ParserError
  | InternalError : ParserError
deriving DecidableEq, Repr

/-- Parser state.  The Rust `Parser` holds a lookahead `ch : Option Char`
plus the unconsumed iterator; since `ch` is always the next unread
character (or `None` at end of input), the pair is modelled as the plain
list of unread characters with `ch` as its head and `bump` as `tail`. -/
abbrev PState : Type := List Char

/-- `Parser::bump`. -/
def bump (st : PState) : PState := st.tail

/-- `Parser::ch_is_whitespace`. -/
def chIsWs (st : PState) : Bool :=
  match st with
  | [] => false
  | c :: _ => c.isWhitespace

/-- `Parser::ch_is_terminator`. -/
def chIsTerm (st : PState) : Bool :=
  match st with
  | [] => true
  | c :: _ => c.isWhitespace || c = '(' || c = ')'

/-- `Parser::skip_whitespace`. -/
def skipWs (st : PState) : PState :=
  match st with
  | [] => []
  | c :: rest => if c.isWhitespace then skipWs rest else c :: rest

/-- `Parser::parse_blank_null_seq`. -/
def parse_blank_null_seq (st : PState) : Except ParserError (Expression × PState) :=
  if !chIsTerm st then .error (.SyntaxError .InvalidPattern)
  else .ok (.BlankNullSeq, st)

/-- `Parser::parse_blank_seq`. -/
def parse_blank_seq (st : PState) : Except ParserError (Expression × PState) :=
  if st.head? == some '_' then parse_blank_null_seq (bump st)
  else if !chIsTerm st then .error (.SyntaxError .InvalidPattern)
  else .ok (.BlankSeq, st)

/-- `Parser::parse_blank`. -/
def parse_blank (st : PState) : Except ParserError (Expression × PState) :=
  if st.head? == some '_' then parse_blank_seq (bump st)
  else if !chIsTerm st then .error (.SyntaxError .InvalidPattern)
  else .ok (.Blank, st)

/-- `Parser::parse_pattern_null_seq`. -/
def parse_pattern_null_seq (s : String) (st : PState) :
    Except ParserError (Expression × PState) :=
  if !chIsTerm st then .error (.SyntaxError .InvalidPattern)
  else .ok (.PatternNullSeq s, st)

/-- `Parser::parse_pattern_seq`. -/
def parse_pattern_seq (s : String) (st : PState) :
    Except ParserError (Expression × PState) :=
  if st.head? == some '_' then parse_pattern_null_seq s (bump st)
  else if !chIsTerm st then .error (.SyntaxError .InvalidPattern)
  else .ok (.PatternSeq s, st)

/-- `Parser::parse_pattern`. -/
def parse_pattern (s : String) (st : PState) :
    Except ParserError (Expression × PState) :=
  if st.head? == some '_' then parse_pattern_seq s (bump st)
  else if !chIsTerm st then .error (.SyntaxError .InvalidPattern)
  else .ok (.Pattern s, st)

/-- `Parser::parse_atomic`; `acc` is the accumulated string `s` of the Rust
loop. -/
def parse_atomic (acc : String) (st : PState) :
    Except ParserError (Expression × PState) :=
  match st with
  | [] =>
    if acc.length == 0 then .error .InternalError
    else .ok (.Atom acc, [])
  | c :: rest =>
    if c.isWhitespace || c = '(' || c = ')' then
      if acc.length == 0 then .error .InternalError
      else .ok (.Atom acc, c :: rest)
    else if c = '_' then
      if acc.length == 0 then parse_blank rest
      else parse_pattern acc rest
    else parse_atomic (acc.push c) rest

mutual

/-- `Parser::parse_expression`, with explicit fuel standing for the
recursion depth of the Rust function (any fuel larger than the length of
the input gives the Rust behaviour, because every recursive step has
consumed at least one character; `parse` below supplies such a fuel). -/
def parseExpr (fuel : Nat) (st : PState) :
    Except ParserError (Expression × PState) :=
  match fuel with
  | 0 => .error .InternalError
  | fuel + 1 =>
    match st with
    | [] => .error (.SyntaxError .EmptyInput)
    | c :: rest =>
      if c = '(' then parseListLoop fuel rest []
      else if c = ')' then .error (.SyntaxError .UnbalancedParens)
      else parse_atomic "" (c :: rest)

/-- The `loop` of `Parser::parse_list` (the opening `(` has already been
consumed); `acc` is the accumulated child vector `v`. -/
def parseListLoop (fuel : Nat) (st : PState) (acc : List Expression) :
    Except ParserError (Expression × PState) :=
  match fuel with
  | 0 => .error .InternalError
  | fuel + 1 =>
    match skipWs st with
    | [] => .error (.SyntaxError .UnbalancedParens)
    | c :: rest =>
      if c = ')' then .ok (.List acc, rest)
      else
        match parseExpr fuel (c :: rest) with
        | .ok (e, st') => parseListLoop fuel st' (acc ++ [e])
        | .error err => .error err

end

/-- `FromStr::from_str` / `Parser::parse`: skip whitespace, parse one
expression and return it, discarding whatever input is left unread.  The
fuel `s.length + 1` dominates the recursion depth the Rust parser can
reach on `s`. -/
def parse (s : String) : Except ParserError Expression :=
  (parseExpr (s.length + 1) (skipWs s.data)).map Prod.fst

/-! Pattern-side predicates used to state the claims. -/

/-- The zero-or-more sequence variants. -/
@[simp] def isNullSeqVar : Expression → Bool
  | .BlankNullSeq => true
  | .PatternNullSeq _ => true
  | _ => false

/-- Every element of the list is a zero-or-more sequence variant. -/
def allNullSeq (ps : List Expression) : Bool :=
  ps.all isNullSeqVar

/-- In every list of the pattern, once a zero-or-more sequence variant
occurs, all later elements of that list are zero-or-more sequence variants
as well (and nested lists satisfy the same condition). -/
def nullOkL (ps : List Expression) : Bool :=
  match ps with
  | [] => true
  | .List qs :: pt => nullOkL qs && nullOkL pt
  | p :: pt => if isNullSeqVar p then allNullSeq pt else nullOkL pt
termination_by sizeOf ps

/-- `nullOkL` at a single pattern node. -/
def nullOkE (p : Expression) : Bool :=
  match p with
  | .List ps => nullOkL ps
  | _ => true

@[simp] theorem nullOkL_nil : nullOkL [] = true := by simp [nullOkL]

@[simp] theorem nullOkL_cons_list (qs pt : List Expression) :
    nullOkL (.List qs :: pt) = (nullOkL qs && nullOkL pt) := by
  simp [nullOkL]

@[simp] theorem nullOkL_cons (p : Expression) (pt : List Expression)
    (h : ∀ qs, p ≠ .List qs) :
    nullOkL (p :: pt) = (if isNullSeqVar p then allNullSeq pt else nullOkL pt) := by
  cases p <;> simp_all [nullOkL]

mutual

/-- The named variables of a pattern, with multiplicity, in document
order. -/
def varsE (p : Expression) : List String :=
  match p with
  | .List ps => varsL ps
  | .Pattern s => [s]
  | .PatternSeq s => [s]
  | .PatternNullSeq s => [s]
  | _ => []
termination_by sizeOf p

/-- `varsE` over a list of patterns. -/
def varsL (ps : List Expression) : List String :=
  match ps with
  | [] => []
  | p :: pt => varsE p ++ varsL pt
termination_by sizeOf ps

end

@[simp] theorem varsE_list (ps : List Expression) : varsE (.List ps) = varsL ps := by
  simp [varsE]

@[simp] theorem varsE_atom (s : String) : varsE (.Atom s) = [] := by simp [varsE]

@[simp] theorem varsE_blank : varsE .Blank = [] := by simp [varsE]

@[simp] theorem varsE_blankSeq : varsE .BlankSeq = [] := by simp [varsE]

@[simp] theorem varsE_blankNullSeq : varsE .BlankNullSeq = [] := by simp [varsE]

@[simp] theorem varsE_pattern (s : String) : varsE (.Pattern s) = [s] := by
  simp [varsE]

@[simp] theorem varsE_patternSeq (s : String) : varsE (.PatternSeq s) = [s] := by
  simp [varsE]

@[simp] theorem varsE_patternNullSeq (s : String) :
    varsE (.PatternNullSeq s) = [s] := by
  simp [varsE]

@[simp] theorem varsL_nil : varsL [] = [] := by simp [varsL]

@[simp] theorem varsL_cons (p : Expression) (pt : List Expression) :
    varsL (p :: pt) = varsE p ++ varsL pt := by
  simp [varsL]

/-- A tree containing no wildcard or named-variable markers (only `List`
and `Atom` nodes). -/
def markerFree (e : Expression) : Bool :=
  match e with
  | .Atom _ => true
  | .List [] => true
  | .List (x :: t) => markerFree x && markerFree (.List t)
  | _ => false
termination_by sizeOf e

@[simp] theorem markerFree_atom (s : String) : markerFree (.Atom s) = true := by
  simp [markerFree]

@[simp] theorem markerFree_list (es : List Expression) :
    markerFree (.List es) = es.all markerFree := by
  induction es with
  | nil => simp [markerFree]
  | cons x t ih => rw [markerFree]; simp [ih]

@[simp] theorem markerFree_blank : markerFree .Blank = false := by
  simp [markerFree]

@[simp] theorem markerFree_blankSeq : markerFree .BlankSeq = false := by
  simp [markerFree]

@[simp] theorem markerFree_blankNullSeq : markerFree .BlankNullSeq = false := by
  simp [markerFree]

@[simp] theorem markerFree_pattern (s : String) :
    markerFree (.Pattern s) = false := by
  simp [markerFree]

@[simp] theorem markerFree_patternSeq (s : String) :
    markerFree (.PatternSeq s) = false := by
  simp [markerFree]

@[simp] theorem markerFree_patternNullSeq (s : String) :
    markerFree (.PatternNullSeq s) = false := by
  simp [markerFree]

/-! The specification-side matching relation for claim C1, written from the
claim's words: an assignment `σ` of the pattern's named variables
(single-expression values for `Pattern`, consecutive-run values for the
sequence variants) makes the pattern list structurally identical to the
subject list after binding.  Unnamed wildcards (`Blank`, `BlankSeq`,
`BlankNullSeq`) take a fresh value at every occurrence. -/

/-- `SubstSeq σ ps es` holds when binding the pattern list `ps` through the
assignment `σ` can yield exactly the subject list `es`. -/
inductive SubstSeq : (String → Option Binding) → List Expression → List Expression → Prop where
  | nil (σ : String → Option Binding) : SubstSeq σ [] []
  | consAtom (σ : String → Option Binding) (s : String) (pt et : List Expression) :
      SubstSeq σ pt et → SubstSeq σ (.Atom s :: pt) (.Atom s :: et)
  | consBlank (σ : String → Option Binding) (e : Expression) (pt et : List Expression) :
      SubstSeq σ pt et → SubstSeq σ (.Blank :: pt) (e :: et)
  | consPattern (σ : String → Option Binding) (s : String) (e : Expression)
      (pt et : List Expression) :
      σ s = some (.Expression e) → SubstSeq σ pt et →
      SubstSeq σ (.Pattern s :: pt) (e :: et)
  | consList (σ : String → Option Binding) (qs fs pt et : List Expression) :
      SubstSeq σ qs fs → SubstSeq σ pt et →
      SubstSeq σ (.List qs :: pt) (.List fs :: et)
  | blankSeq (σ : String → Option Binding) (run rest : List Expression)
      (pt : List Expression) :
      run ≠ [] → SubstSeq σ pt rest → SubstSeq σ (.BlankSeq :: pt) (run ++ rest)
  | blankNullSeq (σ : String → Option Binding) (run rest : List Expression)
      (pt : List Expression) :
      SubstSeq σ pt rest → SubstSeq σ (.BlankNullSeq :: pt) (run ++ rest)
  | patternSeq (σ : String → Option Binding) (s : String) (run rest : List Expression)
      (pt : List Expression) :
      σ s = some (.Sequence run) → run ≠ [] → SubstSeq σ pt rest →
      SubstSeq σ (.PatternSeq s :: pt) (run ++ rest)
  | patternNullSeq (σ : String → Option Binding) (s : String)
      (run rest : List Expression) (pt : List Expression) :
      σ s = some (.Sequence run) → SubstSeq σ pt rest →
      SubstSeq σ (.PatternNullSeq s :: pt) (run ++ rest)

/-- Claim C1's specification side: some assignment of the pattern's
variables turns the pattern into the subject. -/
def SpecMatches (e p : Expression) : Prop :=
  ∃ σ : String → Option Binding, SubstSeq σ [p] [e]

/-! The matcher's success boolean does not depend on the bindings map it
is handed: the Rust code only ever inserts into `bs`, never reads it. -/

mutual

/-- `match_expression`'s boolean is independent of the incoming map. -/
theorem matchE_fst_indep (e p : Expression) (bs bs' : Bindings) :
    (match_expression e p bs).1 = (match_expression e p bs').1 := by
  cases p with
  | List ps =>
    cases e <;> simp [match_expression]
    exact matchSeq_fst_indep _ ps bs bs'
  | Atom j => cases e <;> simp [match_expression]
  | Blank => simp
  | BlankSeq => simp
  | BlankNullSeq => simp
  | Pattern s => simp
  | PatternSeq s => simp
  | PatternNullSeq s => simp
termination_by (sizeOf p, 0)

/-- `match_seq`'s boolean is independent of the incoming map. -/
theorem matchSeq_fst_indep (es ps : List Expression) (bs bs' : Bindings) :
    (match_seq es ps bs).1 = (match_seq es ps bs').1 := by
  cases ps with
  | nil => simp
  | cons p0 pt =>
    cases p0 with
    | BlankSeq =>
      cases es with
      | nil => simp
      | cons e et => simpa using bseqLoop_fst_indep et pt bs bs'
    | BlankNullSeq =>
      cases es with
      | nil => simp
      | cons e et => simpa using bseqLoop_fst_indep (e :: et) pt bs bs'
    | PatternSeq s =>
      cases es with
      | nil => simp
      | cons e et => simpa using pseqLoop_fst_indep s [e] [e] et pt bs bs'
    | PatternNullSeq s =>
      cases es with
      | nil => simp
      | cons e et => simpa using pseqLoop_fst_indep s [] [] (e :: et) pt bs bs'
    | Atom j =>
      cases es with
      | nil => simp
      | cons e et =>
        rw [match_seq_node_cons _ _ _ _ _ (by simp),
          match_seq_node_cons _ _ _ _ _ (by simp),
          ← matchE_fst_indep e (.Atom j) bs bs']
        cases hb : (match_expression e (.Atom j) bs).1 with
        | true =>
          simpa [hb] using matchSeq_fst_indep et pt
            (match_expression e (.Atom j) bs).2 (match_expression e (.Atom j) bs').2
        | false => simp [hb]
    | List qs =>
      cases es with
      | nil => simp
      | cons e et =>
        rw [match_seq_node_cons _ _ _ _ _ (by simp),
          match_seq_node_cons _ _ _ _ _ (by simp),
          ← matchE_fst_indep e (.List qs) bs bs']
        cases hb : (match_expression e (.List qs) bs).1 with
        | true =>
          simpa [hb] using matchSeq_fst_indep et pt
            (match_expression e (.List qs) bs).2 (match_expression e (.List qs) bs').2
        | false => simp [hb]
    | Blank =>
      cases es with
      | nil => simp
      | cons e et =>
        rw [match_seq_node_cons _ _ _ _ _ (by simp),
          match_seq_node_cons _ _ _ _ _ (by simp),
          ← matchE_fst_indep e .Blank bs bs']
        cases hb : (match_expression e .Blank bs).1 with
        | true =>
          simpa [hb] using matchSeq_fst_indep et pt
            (match_expression e .Blank bs).2 (match_expression e .Blank bs').2
        | false => simp [hb]
    | Pattern s =>
      cases es with
      | nil => simp
      | cons e et =>
        rw [match_seq_node_cons _ _ _ _ _ (by simp),
          match_seq_node_cons _ _ _ _ _ (by simp),
          ← matchE_fst_indep e (.Pattern s) bs bs']
        cases hb : (match_expression e (.Pattern s) bs).1 with
        | true =>
          simpa [hb] using matchSeq_fst_indep et pt
            (match_expression e (.Pattern s) bs).2 (match_expression e (.Pattern s) bs').2
        | false => simp [hb]
termination_by (sizeOf ps, 2 * es.length)

/-- `bseqLoop`'s boolean is independent of the incoming map. -/
theorem bseqLoop_fst_indep (es' pt : List Expression) (bs bs' : Bindings) :
    (bseqLoop es' pt bs).1 = (bseqLoop es' pt bs').1 := by
  rw [bseqLoop_unfold, bseqLoop_unfold, ← matchSeq_fst_indep es' pt bs bs']
  cases hb : (match_seq es' pt bs).1 with
  | true => simp [hb]
  | false =>
    cases es' with
    | nil => simp [hb]
    | cons e rest =>
      simpa [hb] using bseqLoop_fst_indep rest pt
        (match_seq (e :: rest) pt bs).2 (match_seq (e :: rest) pt bs').2
termination_by (sizeOf pt, 2 * es'.length + 1)

/-- `pseqLoop`'s boolean is independent of the incoming map and of the
consumed prefix. -/
theorem pseqLoop_fst_indep (s : String) (pre pre' es' pt : List Expression)
    (bs bs' : Bindings) :
    (pseqLoop s pre es' pt bs).1 = (pseqLoop s pre' es' pt bs').1 := by
  rw [pseqLoop_unfold, pseqLoop_unfold,
    ← matchSeq_fst_indep es' pt (insertB s (.Sequence pre) [])
      (insertB s (.Sequence pre') [])]
  cases hb : (match_seq es' pt (insertB s (.Sequence pre) [])).1 with
  | true => simp [hb]
  | false =>
    cases es' with
    | nil => simp [hb]
    | cons e rest =>
      simpa [hb] using pseqLoop_fst_indep s (pre ++ [e]) (pre' ++ [e]) rest pt bs bs'
termination_by (sizeOf pt, 2 * es'.length + 1)

end

/-- The matching boolean of a subject list against a pattern list (by the
independence lemmas, the one `match_seq` computes from any map). -/
def msB (es ps : List Expression) : Bool := (match_seq es ps []).1

theorem matchSeq_fst_eq_msB (es ps : List Expression) (bs : Bindings) :
    (match_seq es ps bs).1 = msB es ps :=
  matchSeq_fst_indep es ps bs []

/-! Characterisation of the candidate loops. -/

/-- `findB` after an insertion. -/
@[simp] theorem findB_insertB (s k : String) (v : Binding) (bs : Bindings) :
    findB (insertB s v bs) k = if s = k then some v else findB bs k := by
  simp [insertB, findB]

/-- `findB` after a merge (`mergeB bs h = h ++ bs`): entries of `h` win. -/
theorem findB_append (h bs : Bindings) (k : String) :
    findB (h ++ bs) k =
      match findB h k with
      | some v => some v
      | none => findB bs k := by
  induction h with
  | nil => simp [findB]
  | cons p t ih =>
    obtain ⟨k', v⟩ := p
    by_cases hk : k' = k <;> simp [findB, hk, ih]

/-- The `BlankSeq`/`BlankNullSeq` loop succeeds iff the pattern tail
matches some suffix of the candidates it is given. -/
theorem bseqLoop_fst_iff (es' pt : List Expression) (bs : Bindings) :
    (bseqLoop es' pt bs).1 = true ↔
      ∃ j, j ≤ es'.length ∧ msB (es'.drop j) pt = true := by
  induction es' generalizing bs with
  | nil =>
    rw [bseqLoop_unfold, matchSeq_fst_eq_msB]
    cases h0 : msB [] pt with
    | true =>
      constructor
      · intro _
        exact ⟨0, by simp, by simpa using h0⟩
      · intro _
        simp [h0]
    | false =>
      constructor
      · intro h
        simp [h0] at h
      · rintro ⟨j, hj, hs⟩
        simp only [List.length_nil, Nat.le_zero] at hj
        subst hj
        simp [h0] at hs
  | cons e rest ih =>
    rw [bseqLoop_unfold, matchSeq_fst_eq_msB]
    cases h0 : msB (e :: rest) pt with
    | true =>
      constructor
      · intro _
        exact ⟨0, by simp, by simpa using h0⟩
      · intro _
        simp [h0]
    | false =>
      simp only [h0, Bool.false_eq_true, if_false]
      rw [ih]
      constructor
      · rintro ⟨j, hj, hs⟩
        exact ⟨j + 1, by simpa using hj, by simpa using hs⟩
      · rintro ⟨j, hj, hs⟩
        cases j with
        | zero =>
          rw [List.drop_zero] at hs
          rw [h0] at hs
          cases hs
        | succ j =>
          exact ⟨j, by simpa using hj, by simpa using hs⟩

/-- The `PatternSeq`/`PatternNullSeq` loop succeeds iff the pattern tail
matches some suffix of the candidates it is given. -/
theorem pseqLoop_fst_iff (s : String) (pre es' pt : List Expression)
    (bs : Bindings) :
    (pseqLoop s pre es' pt bs).1 = true ↔
      ∃ j, j ≤ es'.length ∧ msB (es'.drop j) pt = true := by
  induction es' generalizing pre bs with
  | nil =>
    rw [pseqLoop_unfold, matchSeq_fst_eq_msB]
    cases h0 : msB [] pt with
    | true =>
      constructor
      · intro _
        exact ⟨0, by simp, by simpa using h0⟩
      · intro _
        simp [h0]
    | false =>
      constructor
      · intro h
        simp [h0] at h
      · rintro ⟨j, hj, hs⟩
        simp only [List.length_nil, Nat.le_zero] at hj
        subst hj
        simp [h0] at hs
  | cons e rest ih =>
    rw [pseqLoop_unfold, matchSeq_fst_eq_msB]
    cases h0 : msB (e :: rest) pt with
    | true =>
      constructor
      · intro _
        exact ⟨0, by simp, by simpa using h0⟩
      · intro _
        simp [h0]
    | false =>
      simp only [h0, Bool.false_eq_true, if_false]
      rw [ih]
      constructor
      · rintro ⟨j, hj, hs⟩
        exact ⟨j + 1, by simpa using hj, by simpa using hs⟩
      · rintro ⟨j, hj, hs⟩
        cases j with
        | zero =>
          rw [List.drop_zero] at hs
          rw [h0] at hs
          cases hs
        | succ j =>
          exact ⟨j, by simpa using hj, by simpa using hs⟩

/-- When `k` is the first candidate suffix at which the tail matches, the
`PatternSeq` loop returns exactly the merge of that candidate's local map:
the run bound to `s` is the prefix consumed so far plus the first `k`
further elements. -/
theorem pseqLoop_first_success (k : Nat) :
    ∀ (s : String) (pre es' pt : List Expression) (bs : Bindings),
      k ≤ es'.length → msB (es'.drop k) pt = true →
      (∀ j, j < k → msB (es'.drop j) pt = false) →
      pseqLoop s pre es' pt bs =
        (true, mergeB bs (match_seq (es'.drop k) pt
          (insertB s (.Sequence (pre ++ es'.take k)) [])).2) := by
  induction k with
  | zero =>
    intro s pre es' pt bs hk hs hmin
    rw [pseqLoop_unfold]
    have hb : (match_seq es' pt (insertB s (.Sequence pre) [])).1 = true := by
      rw [matchSeq_fst_eq_msB]
      simpa using hs
    simp [hb]
  | succ k ih =>
    intro s pre es' pt bs hk hs hmin
    have h0 : msB es' pt = false := by simpa using hmin 0 (Nat.succ_pos k)
    have hb : (match_seq es' pt (insertB s (.Sequence pre) [])).1 = false := by
      rw [matchSeq_fst_eq_msB]
      exact h0
    rw [pseqLoop_unfold]
    cases es' with
    | nil => simp at hk
    | cons e rest =>
      simp only [hb, Bool.false_eq_true, if_false]
      rw [ih s (pre ++ [e]) rest pt bs (by simpa using hk) (by simpa using hs)
        (fun j hj => by simpa using hmin (j + 1) (by omega))]
      simp

/-! The matcher writes only to names occurring in the pattern: lookups of
any other name are preserved. -/

mutual

/-- `match_expression` preserves bindings of names not in the pattern. -/
theorem matchE_preserves (e p : Expression) (bs : Bindings) (k : String)
    (h : k ∉ varsE p) :
    findB (match_expression e p bs).2 k = findB bs k := by
  cases p with
  | List ps =>
    cases e <;> simp [match_expression]
    exact matchSeq_preserves _ ps bs k (by simpa using h)
  | Atom j => cases e <;> simp [match_expression]
  | Blank => simp
  | BlankSeq => simp
  | BlankNullSeq => simp
  | Pattern s =>
    have : s ≠ k := by simp at h; exact fun hsk => h hsk.symm
    simp [this]
  | PatternSeq s => simp
  | PatternNullSeq s => simp
termination_by (sizeOf p, 0)

/-- `match_seq` preserves bindings of names not in the pattern list. -/
theorem matchSeq_preserves (es ps : List Expression) (bs : Bindings) (k : String)
    (h : k ∉ varsL ps) :
    findB (match_seq es ps bs).2 k = findB bs k := by
  cases ps with
  | nil => simp
  | cons p0 pt =>
    rw [varsL_cons] at h
    simp only [List.mem_append] at h
    push_neg at h
    obtain ⟨h1, h2⟩ := h
    cases p0 with
    | BlankSeq =>
      cases es with
      | nil => simp
      | cons e et =>
        simpa using bseqLoop_preserves et pt bs k h2
    | BlankNullSeq =>
      cases es with
      | nil => simp
      | cons e et =>
        simpa using bseqLoop_preserves (e :: et) pt bs k h2
    | PatternSeq s =>
      have hks : s ≠ k := by simp at h1; exact fun hsk => h1 hsk.symm
      cases es with
      | nil => simp
      | cons e et =>
        simpa using pseqLoop_preserves s [e] et pt bs k hks h2
    | PatternNullSeq s =>
      have hks : s ≠ k := by simp at h1; exact fun hsk => h1 hsk.symm
      cases es with
      | nil => simp [hks]
      | cons e et =>
        simpa using pseqLoop_preserves s [] (e :: et) pt bs k hks h2
    | Atom j =>
      cases es with
      | nil => simp
      | cons e et =>
        rw [match_seq_node_cons _ _ _ _ _ (by simp)]
        cases hb : (match_expression e (.Atom j) bs).1 with
        | true =>
          simp only [hb, if_true]
          rw [matchSeq_preserves et pt _ k h2]
          exact matchE_preserves e (.Atom j) bs k h1
        | false =>
          simp only [hb, Bool.false_eq_true, if_false]
          exact matchE_preserves e (.Atom j) bs k h1
    | List qs =>
      cases es with
      | nil => simp
      | cons e et =>
        rw [match_seq_node_cons _ _ _ _ _ (by simp)]
        cases hb : (match_expression e (.List qs) bs).1 with
        | true =>
          simp only [hb, if_true]
          rw [matchSeq_preserves et pt _ k h2]
          exact matchE_preserves e (.List qs) bs k h1
        | false =>
          simp only [hb, Bool.false_eq_true, if_false]
          exact matchE_preserves e (.List qs) bs k h1
    | Blank =>
      cases es with
      | nil => simp
      | cons e et =>
        rw [match_seq_node_cons _ _ _ _ _ (by simp)]
        cases hb : (match_expression e .Blank bs).1 with
        | true =>
          simp only [hb, if_true]
          rw [matchSeq_preserves et pt _ k h2]
          exact matchE_preserves e .Blank bs k h1
        | false =>
          simp only [hb, Bool.false_eq_true, if_false]
          exact matchE_preserves e .Blank bs k h1
    | Pattern s =>
      cases es with
      | nil => simp
      | cons e et =>
        rw [match_seq_node_cons _ _ _ _ _ (by simp)]
        cases hb : (match_expression e (.Pattern s) bs).1 with
        | true =>
          simp only [hb, if_true]
          rw [matchSeq_preserves et pt _ k h2]
          exact matchE_preserves e (.Pattern s) bs k h1
        | false =>
          simp only [hb, Bool.false_eq_true, if_false]
          exact matchE_preserves e (.Pattern s) bs k h1
termination_by (sizeOf ps, 2 * es.length)

/-- `bseqLoop` preserves bindings of names not in the pattern tail. -/
theorem bseqLoop_preserves (es' pt : List Expression) (bs : Bindings)
    (k : String) (h : k ∉ varsL pt) :
    findB (bseqLoop es' pt bs).2 k = findB bs k := by
  rw [bseqLoop_unfold]
  cases hb : (match_seq es' pt bs).1 with
  | true =>
    simp only [hb, if_true]
    exact matchSeq_preserves es' pt bs k h
  | false =>
    cases es' with
    | nil =>
      simp only [hb, Bool.false_eq_true, if_false]
      exact matchSeq_preserves [] pt bs k h
    | cons e rest =>
      simp only [hb, Bool.false_eq_true, if_false]
      rw [bseqLoop_preserves rest pt _ k h]
      exact matchSeq_preserves (e :: rest) pt bs k h
termination_by (sizeOf pt, 2 * es'.length + 1)

/-- `pseqLoop` preserves bindings of names other than the bound variable
that do not occur in the pattern tail. -/
theorem pseqLoop_preserves (s : String) (pre es' pt : List Expression)
    (bs : Bindings) (k : String) (hks : s ≠ k) (h : k ∉ varsL pt) :
    findB (pseqLoop s pre es' pt bs).2 k = findB bs k := by
  rw [pseqLoop_unfold]
  cases hb : (match_seq es' pt (insertB s (.Sequence pre) [])).1 with
  | true =>
    simp only [hb, if_true, mergeB]
    rw [findB_append]
    rw [matchSeq_preserves es' pt _ k h]
    simp [hks, findB]
  | false =>
    cases es' with
    | nil => simp [hb]
    | cons e rest =>
      simp only [hb, Bool.false_eq_true, if_false]
      exact pseqLoop_preserves s (pre ++ [e]) rest pt bs k hks h
termination_by (sizeOf pt, 2 * es'.length + 1)

end

/-! Claim C2: the fixpoint rewriter at its iteration bound. -/

/-- With the catch-all pattern `x_` every pass matches at the root and
reports a change, so the loop burns all its fuel and reaches the
`panic!` (modelled by `none`). -/
theorem rrLoop_catchall_none (t : Expression) (s : String) :
    ∀ (n : Nat) (e : Expression), rrLoop n e (.Pattern s) t = none := by
  intro n
  induction n with
  | zero => intro e; simp [rrLoop]
  | succ n ih =>
    intro e
    have h : match_pattern e (.Pattern s) = some (insertB s (.Expression e) []) := by
      simp [match_pattern]
    simp [rrLoop, replace_rec_matched _ _ _ _ h, ih]

/-- C2: with subject `x`, pattern `x_` and template `(x x)` every rewriting
pass keeps reporting a change, and once the fixed bound (1000, i.e. 1001
loop passes) is exhausted `replace_repeated` does not return an expression:
it reaches the `panic!("replacement limit reached!")` call, which aborts
the process (modelled here by the distinguished result `none`).  The claim
says this situation yields an explicit non-convergence failure value
returned to the caller; the code instead panics, as its own documentation
comment ("The function panics if the limit is reached") states. -/
theorem replace_repeated_limit_panics :
    replace_repeated (.Atom "x") (.Pattern "x")
      (.List [.Atom "x", .Atom "x"]) = none := by
  simp [replace_repeated, rrLoop_catchall_none]

/-! Claim C3: standalone named-variable patterns. -/

/-- C3 (corrected): at a standalone node position, a `Pattern` variable
matches any subject and binds its name to the subject; but the named
sequence variants `PatternSeq`/`PatternNullSeq` used as a whole pattern
fall through to the failure catch-all of `match_expression` and never
match, contrary to the claim. -/
theorem standalone_named_variable_matching (e : Expression) (s : String)
    (bs : Bindings) :
    match_expression e (.Pattern s) bs = (true, insertB s (.Expression e) bs)
    ∧ match_pattern e (.Pattern s) = some (insertB s (.Expression e) [])
    ∧ match_expression e (.PatternSeq s) bs = (false, bs)
    ∧ match_expression e (.PatternNullSeq s) bs = (false, bs)
    ∧ match_pattern e (.PatternSeq s) = none
    ∧ match_pattern e (.PatternNullSeq s) = none := by
  refine ⟨by simp, by simp [match_pattern], by simp, by simp, ?_, ?_⟩ <;>
    simp [match_pattern]

/-- C3 counterexample: the claim says a standalone `PatternSeq` matches any
subject and binds; the code rejects the match. -/
theorem standalone_patternSeq_fails :
    match_pattern (.Atom "a") (.PatternSeq "x") = none := by
  simp [match_pattern]

/-! Claim C4: the null-sequence early return on an empty subject list. -/

/-- C4 (code bug): `match_seq` returns `true` for an empty subject list
whenever the pattern head is `BlankNullSeq`/`PatternNullSeq`, without ever
looking at the pattern tail, so `(___ a)` and `(x___ a)` match the empty
list `()` even though the tail `a` cannot match zero elements.  On
non-empty subjects the candidate loop does consult the tail, as the third
conjunct shows. -/
theorem nullseq_empty_subject_ignores_tail :
    (match_pattern (.List []) (.List [.BlankNullSeq, .Atom "a"])).isSome = true
    ∧ (match_pattern (.List []) (.List [.PatternNullSeq "x", .Atom "a"])).isSome
        = true
    ∧ match_pattern (.List [.Atom "b"]) (.List [.BlankNullSeq, .Atom "a"]) = none := by
  refine ⟨by simp [match_pattern], by simp [match_pattern], ?_⟩
  simp [match_pattern, bseqLoop, isSeqVar]

/-! Claim C6: bindings leaking out of failed candidates. -/

/-- C6 (code bug): matching `(a (c q) ())` against `(__ (___ x_ z))`
succeeds only through the empty-subject early return of the `BlankNullSeq`
arm (the second list element `()` matched against `(___ x_ z)`), a path
that binds nothing; yet the returned map binds `x` to `q`.  That binding
was inserted while the failed first candidate of `__` explored
`(c q)` against `(___ x_ z)`, because the `Blank`-style arms thread the
outer map through failed candidates without rollback.  Dropping the
subject element `(c q)` that produced the failed exploration (third and
fourth conjuncts) yields the same success with `x` unbound, isolating the
leaked binding. -/
theorem failed_candidate_binding_leaks :
    Option.bind
      (match_pattern
        (.List [.Atom "a", .List [.Atom "c", .Atom "q"], .List []])
        (.List [.BlankSeq, .List [.BlankNullSeq, .Pattern "x", .Atom "z"]]))
      (fun m => findB m "x") = some (.Expression (.Atom "q"))
    ∧ (match_pattern
        (.List [.Atom "a", .List [.Atom "c", .Atom "q"], .List []])
        (.List [.BlankSeq, .List [.BlankNullSeq, .Pattern "x", .Atom "z"]])).isSome
        = true
    ∧ (match_pattern (.List [.Atom "a", .List []])
        (.List [.BlankSeq, .List [.BlankNullSeq, .Pattern "x", .Atom "z"]])).isSome
        = true
    ∧ Option.bind
        (match_pattern (.List [.Atom "a", .List []])
          (.List [.BlankSeq, .List [.BlankNullSeq, .Pattern "x", .Atom "z"]]))
        (fun m => findB m "x") = none := by
  refine ⟨?_, ?_, ?_, ?_⟩ <;>
    simp [match_pattern, bseqLoop, pseqLoop, isSeqVar, insertB, findB]

/-! Claim C7: leftmost-first, smallest-first splits. -/

/-- C7: when a sequence variable (`PatternSeq`, first conjunct) or a
sequence wildcard (`BlankSeq`, second conjunct) heads the pattern list and
the match succeeds, the consumed run has the minimal admissible length
(at least one element) that lets the remaining pattern match the remaining
subject elements: every shorter admissible run fails, and for a named
variable not re-bound by the tail the returned map binds the name to
exactly that minimal run.  Concretely (third and fourth conjuncts),
pattern `(x__ y_)` against subject `(1 2 3)` binds `x` to the sequence
`[1, 2]` and `y` to the single element `3`. -/
theorem seq_wildcard_minimal_split :
    (∀ (es pt : List Expression) (s : String) (bs : Bindings),
      (match_seq es (.PatternSeq s :: pt) bs).1 = true →
      ∃ i, 1 ≤ i ∧ i ≤ es.length ∧ msB (es.drop i) pt = true
        ∧ (∀ j, 1 ≤ j → j < i → msB (es.drop j) pt = false)
        ∧ (s ∉ varsL pt →
            findB (match_seq es (.PatternSeq s :: pt) bs).2 s =
              some (.Sequence (es.take i))))
    ∧ (∀ (es pt : List Expression) (bs : Bindings),
      (match_seq es (.BlankSeq :: pt) bs).1 = true →
      ∃ i, 1 ≤ i ∧ i ≤ es.length ∧ msB (es.drop i) pt = true
        ∧ ∀ j, 1 ≤ j → j < i → msB (es.drop j) pt = false)
    ∧ Option.bind
        (match_pattern (.List [.Atom "1", .Atom "2", .Atom "3"])
          (.List [.PatternSeq "x", .Pattern "y"]))
        (fun m => findB m "x") = some (.Sequence [.Atom "1", .Atom "2"])
    ∧ Option.bind
        (match_pattern (.List [.Atom "1", .Atom "2", .Atom "3"])
          (.List [.PatternSeq "x", .Pattern "y"]))
        (fun m => findB m "y") = some (.Expression (.Atom "3")) := by
  refine ⟨?_, ?_, ?_, ?_⟩
  · intro es pt s bs h
    cases es with
    | nil => simp at h
    | cons e et =>
      rw [match_seq_patternSeq_cons] at h
      have hex : ∃ j, j ≤ et.length ∧ msB (et.drop j) pt = true :=
        (pseqLoop_fst_iff s [e] et pt bs).mp h
      have hk := Nat.find_spec hex
      set k := Nat.find hex with hkdef
      have hmin' : ∀ j, j < k → msB (et.drop j) pt = false := by
        intro j hj
        have hnj := Nat.find_min hex hj
        have hjle : j ≤ et.length := le_trans (le_of_lt hj) hk.1
        simp only [hjle, true_and] at hnj
        exact Bool.not_eq_true _ ▸ Bool.of_not_eq_true hnj
      refine ⟨k + 1, by omega, by simp; omega, by simpa using hk.2, ?_, ?_⟩
      · intro j h1 h2
        obtain ⟨j', rfl⟩ : ∃ j', j = j' + 1 := ⟨j - 1, by omega⟩
        have hj' : j' < k := by omega
        simpa using hmin' j' hj'
      · intro hs
        rw [match_seq_patternSeq_cons,
          pseqLoop_first_success k s [e] et pt bs hk.1 hk.2 hmin']
        simp only [mergeB]
        rw [findB_append, matchSeq_preserves (et.drop k) pt _ s hs]
        simp [findB, List.take_succ_cons]
  · intro es pt bs h
    cases es with
    | nil => simp at h
    | cons e et =>
      rw [match_seq_blankSeq_cons] at h
      have hex : ∃ j, j ≤ et.length ∧ msB (et.drop j) pt = true :=
        (bseqLoop_fst_iff et pt bs).mp h
      have hk := Nat.find_spec hex
      set k := Nat.find hex with hkdef
      have hmin' : ∀ j, j < k → msB (et.drop j) pt = false := by
        intro j hj
        have hnj := Nat.find_min hex hj
        have hjle : j ≤ et.length := le_trans (le_of_lt hj) hk.1
        simp only [hjle, true_and] at hnj
        exact Bool.not_eq_true _ ▸ Bool.of_not_eq_true hnj
      refine ⟨k + 1, by omega, by simp; omega, by simpa using hk.2, ?_⟩
      intro j h1 h2
      obtain ⟨j', rfl⟩ : ∃ j', j = j' + 1 := ⟨j - 1, by omega⟩
      have hj' : j' < k := by omega
      simpa using hmin' j' hj'
  · simp [match_pattern, pseqLoop, bseqLoop, isSeqVar, insertB, findB, mergeB]
  · simp [match_pattern, pseqLoop, bseqLoop, isSeqVar, insertB, findB, mergeB]

/-- Witness for C7: the first conjunct of the minimal-split theorem applied
to subject `(1 2 3)` with pattern head `x__` and tail `(y_)`. -/
theorem seq_wildcard_minimal_split_witness :
    ∃ i, 1 ≤ i
      ∧ i ≤ ([.Atom "1", .Atom "2", .Atom "3"] : List Expression).length
      ∧ msB (([.Atom "1", .Atom "2", .Atom "3"] : List Expression).drop i)
          [.Pattern "y"] = true
      ∧ (∀ j, 1 ≤ j → j < i →
          msB (([.Atom "1", .Atom "2", .Atom "3"] : List Expression).drop j)
            [.Pattern "y"] = false)
      ∧ ("x" ∉ varsL [.Pattern "y"] →
          findB (match_seq [.Atom "1", .Atom "2", .Atom "3"]
              (.PatternSeq "x" :: [.Pattern "y"]) []).2 "x" =
            some (.Sequence (([.Atom "1", .Atom "2", .Atom "3"] :
              List Expression).take i))) :=
  seq_wildcard_minimal_split.1 [.Atom "1", .Atom "2", .Atom "3"] [.Pattern "y"]
    "x" []
    (by simp [pseqLoop, isSeqVar, insertB])

/-! Claim C8: repeated named variables. -/

/-- C8: map insertion silently overwrites (first conjunct: the newest
binding for a name is the one `findB` returns), and matching the pattern
`(x_ x_)` against `(a b)` succeeds with `x` bound to the later
occurrence's subject `b`, even though the two occurrences matched the
different sub-trees `a` and `b` (no equality check is performed). -/
theorem later_occurrence_overwrites :
    (∀ (s : String) (v v' : Binding) (bs : Bindings),
        findB (insertB s v' (insertB s v bs)) s = some v')
    ∧ Option.bind
        (match_pattern (.List [.Atom "a", .Atom "b"])
          (.List [.Pattern "x", .Pattern "x"]))
        (fun m => findB m "x") = some (.Expression (.Atom "b"))
    ∧ (match_pattern (.List [.Atom "a", .Atom "b"])
        (.List [.Pattern "x", .Pattern "x"])).isSome = true
    ∧ Expression.Atom "a" ≠ Expression.Atom "b" := by
  refine ⟨fun s v v' bs => by simp [insertB, findB], ?_, ?_, by simp⟩ <;>
    simp [match_pattern, isSeqVar, insertB, findB]

/-! Claim C5: node-wise behaviour of `replace_all`. -/

/-- The child loop of `replace_rec` computes the children's independent
results and the or of their flags. -/
theorem replace_recList_eq (es : List Expression) (pat t : Expression) :
    replace_recList es pat t =
      (es.map fun c => (replace_rec c pat t).1,
       es.any fun c => (replace_rec c pat t).2) := by
  induction es with
  | nil => simp
  | cons e rest ih => simp [ih]

/-- C5: `replace_all` is the tree of `replace_rec`, and `replace_rec`
behaves node-wise as the claim states: a successful root match replaces
the node by the bound template (flag `true`, no further descent); a failed
root match on a `List` rebuilds the node from the children's independent
results, the flag being `true` iff some child's flag is (so the flag
reports whether a replacement occurred anywhere in the traversal); a
failed root match on a non-list leaf returns the node unchanged with flag
`false`. -/
theorem replace_all_characterization (pattern template : Expression) :
    (∀ e, replace_all e pattern template = (replace_rec e pattern template).1)
    ∧ (∀ e bs, match_pattern e pattern = some bs →
        replace_rec e pattern template = (bind template bs, true))
    ∧ (∀ es, match_pattern (.List es) pattern = none →
        replace_rec (.List es) pattern template =
          (.List (es.map fun c => (replace_rec c pattern template).1),
            es.any fun c => (replace_rec c pattern template).2))
    ∧ (∀ e, match_pattern e pattern = none → (∀ es, e ≠ .List es) →
        replace_rec e pattern template = (e, false)) := by
  refine ⟨fun e => rfl, fun e bs h => replace_rec_matched _ _ _ _ h, ?_, ?_⟩
  · intro es h
    rw [replace_rec_unmatched_list _ _ _ h, replace_recList_eq]
  · intro e h hl
    exact replace_rec_unmatched_leaf _ _ _ h hl

/-- Witness for C5: a root match replaces without descending (pattern `a_`
against subject `u` with template `a`), and a non-matching leaf is
returned unchanged with flag `false`. -/
theorem replace_all_characterization_witness :
    replace_rec (.Atom "u") (.Pattern "a") (.Atom "a") = (.Atom "u", true)
    ∧ replace_rec (.Atom "u") (.Atom "v") (.Atom "a") = (.Atom "u", false) := by
  constructor
  · have h := (replace_all_characterization (.Pattern "a") (.Atom "a")).2.1
      (.Atom "u") [("a", .Expression (.Atom "u"))] (by simp [match_pattern, insertB])
    simpa [findB] using h
  · exact (replace_all_characterization (.Atom "v") (.Atom "a")).2.2.2 (.Atom "u")
      (by simp [match_pattern]) (by intro es; simp)

/-! Claim C10: the parser consumes one expression and discards the rest. -/

/-- C10: `"a b"` parses to `a` and `"(a) (b)"` parses to `(a)`, silently
discarding the trailing text; in general `parse` returns whatever the
expression parser produced, never inspecting the leftover state. -/
theorem parse_ignores_trailing_input :
    parse "a b" = .ok (.Atom "a")
    ∧ parse "(a) (b)" = .ok (.List [.Atom "a"])
    ∧ ∀ (s : String) (e : Expression) (st : PState),
        parseExpr (s.length + 1) (skipWs s.data) = .ok (e, st) →
        parse s = .ok e := by
  refine ⟨rfl, rfl, ?_⟩
  intro s e st h
  simp [parse, h, Except.map]

/-- Witness for C10: the general conjunct applied to `"a b"`, whose
expression parse succeeds leaving `" b"` unread. -/
theorem parse_ignores_trailing_input_witness :
    parse "a b" = .ok (.Atom "a") :=
  parse_ignores_trailing_input.2.2 "a b" (.Atom "a") [' ', 'b'] (by rfl)

/-! Claim C1: the matcher agrees with the assignment semantics. -/

/-- `match_pattern` succeeds exactly when the underlying boolean is true. -/
theorem match_pattern_isSome (e p : Expression) :
    (match_pattern e p).isSome = (match_expression e p []).1 := by
  rw [match_pattern]
  cases h : (match_expression e p []).1 <;> simp [h]

/-- A derivation only looks at the assignment on the pattern's variables. -/
theorem substSeq_agree (σ : String → Option Binding) (ps es : List Expression)
    (h : SubstSeq σ ps es) :
    ∀ σ' : String → Option Binding,
      (∀ v ∈ varsL ps, σ' v = σ v) → SubstSeq σ' ps es := by
  induction h with
  | nil => exact fun σ' _ => .nil σ'
  | consAtom s pt et hsub ih =>
    exact fun σ' hag => .consAtom σ' s pt et (ih σ' fun v hv => hag v (by simp [hv]))
  | consBlank e pt et hsub ih =>
    exact fun σ' hag => .consBlank σ' e pt et (ih σ' fun v hv => hag v (by simp [hv]))
  | consPattern s e pt et hσ hsub ih =>
    intro σ' hag
    refine .consPattern σ' s e pt et ?_ (ih σ' fun v hv => hag v (by simp [hv]))
    rw [hag s (by simp)]
    exact hσ
  | consList qs fs pt et hq ht ihq iht =>
    intro σ' hag
    exact .consList σ' qs fs pt et
      (ihq σ' fun v hv => hag v (by simp [hv]))
      (iht σ' fun v hv => hag v (by simp [hv]))
  | blankSeq run rest pt hne hsub ih =>
    exact fun σ' hag => .blankSeq σ' run rest pt hne
      (ih σ' fun v hv => hag v (by simpa using hv))
  | blankNullSeq run rest pt hsub ih =>
    exact fun σ' hag => .blankNullSeq σ' run rest pt
      (ih σ' fun v hv => hag v (by simpa using hv))
  | patternSeq s run rest pt hσ hne hsub ih =>
    intro σ' hag
    refine .patternSeq σ' s run rest pt ?_ hne
      (ih σ' fun v hv => hag v (by simp [hv]))
    rw [hag s (by simp)]
    exact hσ
  | patternNullSeq s run rest pt hσ hsub ih =>
    intro σ' hag
    refine .patternNullSeq σ' s run rest pt ?_
      (ih σ' fun v hv => hag v (by simp [hv]))
    rw [hag s (by simp)]
    exact hσ

/-- A pattern list made of null-sequence variants only can produce the
empty subject list, all of its variables bound to the empty run. -/
theorem allNullSeq_substSeq_nil (pt : List Expression)
    (h : allNullSeq pt = true) :
    SubstSeq (fun _ => some (.Sequence [])) pt [] := by
  induction pt with
  | nil => exact .nil _
  | cons p pt ih =>
    rw [allNullSeq, List.all_cons] at h
    simp only [Bool.and_eq_true] at h
    obtain ⟨h1, h2⟩ := h
    cases p <;> simp at h1
    · have := SubstSeq.blankNullSeq (fun _ => some (.Sequence [])) [] [] pt
        (ih (by simpa [allNullSeq] using h2))
      simpa using this
    · rename_i s
      have := SubstSeq.patternNullSeq (fun _ => some (.Sequence [])) s [] [] pt
        rfl (ih (by simpa [allNullSeq] using h2))
      simpa using this

/-- A list of null-sequence variants trivially satisfies `nullOkL`. -/
theorem allNullSeq_nullOkL (pt : List Expression) (h : allNullSeq pt = true) :
    nullOkL pt = true := by
  induction pt with
  | nil => simp
  | cons q qt ih =>
    rw [allNullSeq, List.all_cons] at h
    simp only [Bool.and_eq_true] at h
    obtain ⟨h1, h2⟩ := h
    cases q <;> simp_all [allNullSeq]

/-- Completeness of the matcher: whenever some assignment turns the
pattern list into the subject list, the matcher succeeds.  No side
conditions are needed for this direction. -/
theorem substSeq_implies_msB (σ : String → Option Binding)
    (ps es : List Expression) (h : SubstSeq σ ps es) : msB es ps = true := by
  induction h with
  | nil => simp [msB]
  | consAtom s pt et hsub ih =>
    rw [msB, match_seq_node_cons _ _ _ _ _ (by simp)]
    simp [matchSeq_fst_eq_msB, ih]
  | consBlank e pt et hsub ih =>
    rw [msB, match_seq_node_cons _ _ _ _ _ (by simp)]
    simp [matchSeq_fst_eq_msB, ih]
  | consPattern s e pt et hσ hsub ih =>
    rw [msB, match_seq_node_cons _ _ _ _ _ (by simp)]
    simp [matchSeq_fst_eq_msB, ih]
  | consList qs fs pt et hq ht ihq iht =>
    rw [msB, match_seq_node_cons _ _ _ _ _ (by simp)]
    have hfs : (match_expression (.List fs) (.List qs) []).1 = true := by
      rw [match_expression_list, matchSeq_fst_eq_msB]
      exact ihq
    simp [hfs, matchSeq_fst_eq_msB, ihq, iht]
  | blankSeq run rest pt hne hsub ih =>
    obtain ⟨r0, rtail, rfl⟩ := List.exists_cons_of_ne_nil hne
    rw [msB, List.cons_append, match_seq_blankSeq_cons, bseqLoop_fst_iff]
    exact ⟨rtail.length, by simp, by simpa [List.drop_left] using ih⟩
  | blankNullSeq run rest pt hsub ih =>
    rcases hre : run ++ rest with _ | ⟨x, xs⟩
    · simp [msB]
    · rw [msB, match_seq_blankNullSeq_cons, bseqLoop_fst_iff]
      refine ⟨run.length, ?_, ?_⟩
      · rw [← hre]
        simp
      · rw [← hre, List.drop_left]
        exact ih
  | patternSeq s run rest pt hσ hne hsub ih =>
    obtain ⟨r0, rtail, rfl⟩ := List.exists_cons_of_ne_nil hne
    rw [msB, List.cons_append, match_seq_patternSeq_cons, pseqLoop_fst_iff]
    exact ⟨rtail.length, by simp, by simpa [List.drop_left] using ih⟩
  | patternNullSeq s run rest pt hσ hsub ih =>
    rcases hre : run ++ rest with _ | ⟨x, xs⟩
    · simp [msB]
    · rw [msB, match_seq_patternNullSeq_cons, pseqLoop_fst_iff]
      refine ⟨run.length, ?_, ?_⟩
      · rw [← hre]
        simp
      · rw [← hre, List.drop_left]
        exact ih

/-- Soundness of the matcher for linear patterns whose null-sequence
variants are only followed by null-sequence variants: a successful match
is explained by an assignment. -/
theorem msB_implies_substSeq (ps : List Expression) :
    ∀ es : List Expression, (varsL ps).Nodup → nullOkL ps = true →
      msB es ps = true → ∃ σ : String → Option Binding, SubstSeq σ ps es := by
  intro es hnd hok h
  cases ps with
  | nil =>
    cases es with
    | nil => exact ⟨fun _ => none, .nil _⟩
    | cons e et => simp [msB] at h
  | cons p0 pt =>
    cases p0 with
    | BlankSeq =>
      cases es with
      | nil => simp [msB] at h
      | cons e et =>
        rw [msB, match_seq_blankSeq_cons, bseqLoop_fst_iff] at h
        obtain ⟨j, hj, hs⟩ := h
        obtain ⟨σt, hσt⟩ := msB_implies_substSeq pt (et.drop j)
          (by simpa using hnd) (by simpa [nullOkL] using hok) hs
        refine ⟨σt, ?_⟩
        have := SubstSeq.blankSeq σt (e :: et.take j) (et.drop j) pt (by simp) hσt
        simpa [List.take_append_drop] using this
    | BlankNullSeq =>
      have hall : allNullSeq pt = true := by simpa [nullOkL] using hok
      cases es with
      | nil =>
        refine ⟨fun _ => some (.Sequence []), ?_⟩
        have := SubstSeq.blankNullSeq (fun _ => some (.Sequence [])) [] [] pt
          (allNullSeq_substSeq_nil pt hall)
        simpa using this
      | cons e et =>
        rw [msB, match_seq_blankNullSeq_cons, bseqLoop_fst_iff] at h
        obtain ⟨j, hj, hs⟩ := h
        obtain ⟨σt, hσt⟩ := msB_implies_substSeq pt ((e :: et).drop j)
          (by simpa using hnd) (allNullSeq_nullOkL pt hall) hs
        refine ⟨σt, ?_⟩
        have := SubstSeq.blankNullSeq σt ((e :: et).take j) ((e :: et).drop j) pt hσt
        simpa [List.take_append_drop] using this
    | PatternSeq s =>
      have hnd2 : ¬ s ∈ varsL pt ∧ (varsL pt).Nodup := by
        have := hnd
        rw [varsL_cons, varsE_patternSeq] at this
        simp only [List.singleton_append, List.nodup_cons] at this
        exact this
      cases es with
      | nil => simp [msB] at h
      | cons e et =>
        rw [msB, match_seq_patternSeq_cons, pseqLoop_fst_iff] at h
        obtain ⟨j, hj, hs⟩ := h
        obtain ⟨σt, hσt⟩ := msB_implies_substSeq pt (et.drop j) hnd2.2
          (by simpa [nullOkL] using hok) hs
        refine ⟨fun v => if v = s then some (.Sequence (e :: et.take j)) else σt v, ?_⟩
        have hagree : SubstSeq
            (fun v => if v = s then some (.Sequence (e :: et.take j)) else σt v)
            pt (et.drop j) := by
          refine substSeq_agree σt pt (et.drop j) hσt _ fun v hv => ?_
          have hvs : ¬ v = s := fun hvs => hnd2.1 (hvs ▸ hv)
          simp [hvs]
        have := SubstSeq.patternSeq
          (fun v => if v = s then some (.Sequence (e :: et.take j)) else σt v)
          s (e :: et.take j) (et.drop j) pt (by simp) (by simp) hagree
        simpa [List.take_append_drop] using this
    | PatternNullSeq s =>
      have hall : allNullSeq pt = true := by simpa [nullOkL] using hok
      have hnd2 : ¬ s ∈ varsL pt ∧ (varsL pt).Nodup := by
        have := hnd
        rw [varsL_cons, varsE_patternNullSeq] at this
        simp only [List.singleton_append, List.nodup_cons] at this
        exact this
      cases es with
      | nil =>
        refine ⟨fun _ => some (.Sequence []), ?_⟩
        have := SubstSeq.patternNullSeq (fun _ => some (.Sequence [])) s [] [] pt
          rfl (allNullSeq_substSeq_nil pt hall)
        simpa using this
      | cons e et =>
        rw [msB, match_seq_patternNullSeq_cons, pseqLoop_fst_iff] at h
        obtain ⟨j, hj, hs⟩ := h
        obtain ⟨σt, hσt⟩ := msB_implies_substSeq pt ((e :: et).drop j) hnd2.2
          (allNullSeq_nullOkL pt hall) hs
        refine ⟨fun v => if v = s then some (.Sequence ((e :: et).take j)) else σt v, ?_⟩
        have hagree : SubstSeq
            (fun v => if v = s then some (.Sequence ((e :: et).take j)) else σt v)
            pt ((e :: et).drop j) := by
          refine substSeq_agree σt pt ((e :: et).drop j) hσt _ fun v hv => ?_
          have hvs : ¬ v = s := fun hvs => hnd2.1 (hvs ▸ hv)
          simp [hvs]
        have := SubstSeq.patternNullSeq
          (fun v => if v = s then some (.Sequence ((e :: et).take j)) else σt v)
          s ((e :: et).take j) ((e :: et).drop j) pt (by simp) hagree
        simpa [List.take_append_drop] using this
    | Atom i =>
      cases es with
      | nil => simp [msB] at h
      | cons e et =>
        rw [msB, match_seq_node_cons _ _ _ _ _ (by simp)] at h
        cases hb : (match_expression e (.Atom i) []).1 with
        | false => simp [hb] at h
        | true =>
          simp only [hb, if_true, matchSeq_fst_eq_msB] at h
          obtain ⟨σt, hσt⟩ := msB_implies_substSeq pt et
            (by simpa using hnd) (by simpa [nullOkL] using hok) h
          cases e <;> simp [match_expression] at hb
          subst hb
          exact ⟨σt, .consAtom σt _ pt et hσt⟩
    | Blank =>
      cases es with
      | nil => simp [msB] at h
      | cons e et =>
        rw [msB, match_seq_node_cons _ _ _ _ _ (by simp)] at h
        simp only [match_expression_blank, if_true, matchSeq_fst_eq_msB] at h
        obtain ⟨σt, hσt⟩ := msB_implies_substSeq pt et
          (by simpa using hnd) (by simpa [nullOkL] using hok) h
        exact ⟨σt, .consBlank σt e pt et hσt⟩
    | Pattern s =>
      have hnd2 : ¬ s ∈ varsL pt ∧ (varsL pt).Nodup := by
        have := hnd
        rw [varsL_cons, varsE_pattern] at this
        simp only [List.singleton_append, List.nodup_cons] at this
        exact this
      cases es with
      | nil => simp [msB] at h
      | cons e et =>
        rw [msB, match_seq_node_cons _ _ _ _ _ (by simp)] at h
        simp only [match_expression_pattern, if_true, matchSeq_fst_eq_msB] at h
        obtain ⟨σt, hσt⟩ := msB_implies_substSeq pt et hnd2.2
          (by simpa [nullOkL] using hok) h
        refine ⟨fun v => if v = s then some (.Expression e) else σt v, ?_⟩
        have hagree : SubstSeq
            (fun v => if v = s then some (.Expression e) else σt v) pt et := by
          refine substSeq_agree σt pt et hσt _ fun v hv => ?_
          have hvs : ¬ v = s := fun hvs => hnd2.1 (hvs ▸ hv)
          simp [hvs]
        exact .consPattern _ s e pt et (by simp) hagree
    | List qs =>
      cases es with
      | nil => simp [msB] at h
      | cons e et =>
        rw [msB, match_seq_node_cons _ _ _ _ _ (by simp)] at h
        cases hb : (match_expression e (.List qs) []).1 with
        | false => simp [hb] at h
        | true =>
          simp only [hb, if_true, matchSeq_fst_eq_msB] at h
          have hndq : (varsL qs).Nodup ∧ (varsL pt).Nodup ∧
              ∀ v ∈ varsL qs, v ∉ varsL pt := by
            rw [varsL_cons, varsE_list] at hnd
            exact ⟨hnd.of_append_left, hnd.of_append_right,
              fun v hv => (List.disjoint_of_nodup_append hnd) hv⟩
          have hokq : nullOkL qs = true ∧ nullOkL pt = true := by
            rw [nullOkL_cons_list] at hok
            simpa using hok
          obtain ⟨σt, hσt⟩ := msB_implies_substSeq pt et hndq.2.1 hokq.2 h
          cases e <;> simp [match_expression] at hb
          rename_i fs
          rw [matchSeq_fst_eq_msB] at hb
          obtain ⟨σq, hσq⟩ := msB_implies_substSeq qs fs hndq.1 hokq.1 hb
          refine ⟨fun v => if v ∈ varsL qs then σq v else σt v, ?_⟩
          have hq : SubstSeq (fun v => if v ∈ varsL qs then σq v else σt v) qs fs := by
            exact substSeq_agree σq qs fs hσq _ fun v hv => by simp [hv]
          have ht : SubstSeq (fun v => if v ∈ varsL qs then σq v else σt v) pt et := by
            refine substSeq_agree σt pt et hσt _ fun v hv => ?_
            have hvq : ¬ v ∈ varsL qs := fun hvq => hndq.2.2 v hvq hv
            simp [hvq]
          exact .consList _ qs fs pt et hq ht
termination_by sizeOf ps

/-- C1 (amended): for a pattern that is linear (no named variable occurs
twice), is not itself a sequence variant at the root, and in which a
null-sequence variant is only ever followed by further null-sequence
variants inside its list, `match_pattern e p` succeeds if and only if some
assignment of `p`'s variables (single expressions for `Pattern`,
consecutive runs for the sequence variants, a free choice at each unnamed
wildcard) turns `p` into `e`. -/
theorem match_pattern_iff_specMatches (e p : Expression)
    (h1 : (varsE p).Nodup) (h2 : isSeqVar p = false) (h3 : nullOkE p = true) :
    (match_pattern e p).isSome ↔ SpecMatches e p := by
  rw [match_pattern_isSome]
  constructor
  · intro hb
    cases p with
    | Atom j =>
      cases e <;> simp [match_expression] at hb
      subst hb
      exact ⟨fun _ => none, .consAtom _ _ [] [] (.nil _)⟩
    | Blank =>
      exact ⟨fun _ => none, .consBlank _ e [] [] (.nil _)⟩
    | Pattern s =>
      exact ⟨fun v => if v = s then some (.Expression e) else none,
        .consPattern _ s e [] [] (by simp) (.nil _)⟩
    | List ps =>
      cases e <;> simp [match_expression] at hb
      rename_i es
      rw [matchSeq_fst_eq_msB] at hb
      obtain ⟨σ, hσ⟩ := msB_implies_substSeq ps es (by simpa using h1)
        (by simpa [nullOkE] using h3) hb
      exact ⟨σ, .consList σ ps es [] [] hσ (.nil σ)⟩
    | BlankSeq => simp at h2
    | BlankNullSeq => simp at h2
    | PatternSeq s => simp at h2
    | PatternNullSeq s => simp at h2
  · rintro ⟨σ, hσ⟩
    cases p with
    | Atom j =>
      cases hσ
      simp [match_expression]
    | Blank => simp
    | Pattern s => simp
    | List ps =>
      cases hσ
      rename_i fs hq ht
      rw [match_expression_list, matchSeq_fst_eq_msB]
      exact substSeq_implies_msB σ ps fs hq
    | BlankSeq => simp at h2
    | BlankNullSeq => simp at h2
    | PatternSeq s => simp at h2
    | PatternNullSeq s => simp at h2

/-- Witness for C1: the amended equivalence evaluated on the subject
`(a b)` and the pattern `(x_ __)`, which is linear, has a list root and
contains no null-sequence variants. -/
theorem match_pattern_iff_specMatches_witness :
    (match_pattern (.List [.Atom "a", .Atom "b"])
        (.List [.Pattern "x", .BlankSeq])).isSome ↔
      SpecMatches (.List [.Atom "a", .Atom "b"])
        (.List [.Pattern "x", .BlankSeq]) :=
  match_pattern_iff_specMatches (.List [.Atom "a", .Atom "b"])
    (.List [.Pattern "x", .BlankSeq])
    (by simp) (by simp) (by simp [nullOkE, nullOkL])

/-- C1 counterexample: the pattern `(x_ x_)` uses the same variable twice;
the matcher accepts the subject `(a b)` (the second binding silently
overwrites the first), but no single assignment of `x` can turn
`(x_ x_)` into `(a b)`, so the claimed equivalence fails as stated. -/
theorem match_pattern_repeated_variable_counterexample :
    (match_pattern (.List [.Atom "a", .Atom "b"])
        (.List [.Pattern "x", .Pattern "x"])).isSome = true
    ∧ ¬ SpecMatches (.List [.Atom "a", .Atom "b"])
        (.List [.Pattern "x", .Pattern "x"]) := by
  constructor
  · simp [match_pattern, isSeqVar, insertB]
  · rintro ⟨σ, hσ⟩
    cases hσ
    rename_i hq ht
    cases hq
    rename_i ha htail
    cases htail
    rename_i hb h3
    rw [ha] at hb
    simp at hb

/-! Claim C9: rendering and re-parsing. -/

/-- Characters legal inside an atom of the textual grammar (no whitespace,
parentheses or underscores). -/
def goodChar (c : Char) : Bool :=
  !c.isWhitespace && !(c = '(') && !(c = ')') && !(c = '_')

/-- A non-empty string of atom-legal characters. -/
def goodAtom (s : String) : Bool :=
  !(s.data.isEmpty) && s.data.all goodChar

/-- Marker-free trees whose atoms consist of atom-legal characters. -/
def goodTree (e : Expression) : Bool :=
  match e with
  | .Atom s => goodAtom s
  | .List [] => true
  | .List (x :: t) => goodTree x && goodTree (.List t)
  | _ => false
termination_by sizeOf e

@[simp] theorem goodTree_atom (s : String) : goodTree (.Atom s) = goodAtom s := by
  simp [goodTree]

@[simp] theorem goodTree_list (es : List Expression) :
    goodTree (.List es) = es.all goodTree := by
  induction es with
  | nil => simp [goodTree]
  | cons x t ih => rw [goodTree]; simp [ih]

/-- C9 counterexample: the marker-free tree `Atom "x_"` renders to the text
`x_`, which re-parses as the different tree `Pattern "x"`. -/
theorem roundtrip_counterexample :
    markerFree (.Atom "x_") = true
    ∧ parse (render (.Atom "x_")) = .ok (.Pattern "x")
    ∧ Expression.Pattern "x" ≠ Expression.Atom "x_" := by
  refine ⟨by simp, ?_, by simp⟩
  have h : render (.Atom "x_") = "x_" := by simp
  rw [h]
  rfl

mutual

/-- Fuel sufficient for `parseExpr` on the rendering of a tree. -/
def fE (e : Expression) : Nat :=
  match e with
  | .List es => 1 + fL es
  | _ => 1
termination_by sizeOf e

/-- Fuel sufficient for `parseListLoop` on the rendering of a child list. -/
def fL (es : List Expression) : Nat :=
  match es with
  | [] => 1
  | c :: rest => 1 + max (fE c) (fL rest)
termination_by sizeOf es

end

@[simp] theorem fE_list (es : List Expression) : fE (.List es) = 1 + fL es := by
  simp [fE]

@[simp] theorem fE_atom (s : String) : fE (.Atom s) = 1 := by simp [fE]

@[simp] theorem fL_nil : fL [] = 1 := by simp [fL]

@[simp] theorem fL_cons (c : Expression) (rest : List Expression) :
    fL (c :: rest) = 1 + max (fE c) (fL rest) := by
  simp [fL]

mutual

/-- The fuel a tree needs is dominated by its rendering's length. -/
theorem fE_le (e : Expression) : fE e ≤ (render e).length + 1 := by
  cases e with
  | List es =>
    have h := fL_le es
    rw [render_list]
    simp only [fE_list, String.length_append]
    have hp1 : ("(" : String).length = 1 := rfl
    have hp2 : (")" : String).length = 1 := rfl
    omega
  | Atom s => simp
  | Blank => simp [fE]
  | BlankSeq => simp [fE]
  | BlankNullSeq => simp [fE]
  | Pattern s => simp [fE]
  | PatternSeq s => simp [fE]
  | PatternNullSeq s => simp [fE]
termination_by sizeOf e

/-- The fuel a child list needs is dominated by its rendering's length. -/
theorem fL_le (es : List Expression) :
    fL es ≤ (renderList es).length + 2 := by
  cases es with
  | nil => simp
  | cons e rest =>
    cases rest with
    | nil =>
      have h := fE_le e
      simp only [fL_cons, fL_nil, renderList_single]
      omega
    | cons f rest' =>
      have h1 := fE_le e
      have h2 := fL_le (f :: rest')
      rw [renderList_cons, fL_cons]
      simp only [String.length_append]
      have hsp : (" " : String).length = 1 := rfl
      omega
termination_by sizeOf es

end

/-- `skip_whitespace` does nothing when the next character is not
whitespace. -/
theorem skipWs_noop (cs : List Char) (h : chIsWs cs = false) : skipWs cs = cs := by
  cases cs with
  | nil => rfl
  | cons c r =>
    simp [chIsWs] at h
    simp [skipWs, h]

/-- A whitespace character at the head of the state is skipped by the list
loop before it dispatches. -/
theorem parseListLoop_ws (fuel : Nat) (c : Char) (hc : c.isWhitespace = true)
    (st : PState) (acc : List Expression) :
    parseListLoop fuel (c :: st) acc = parseListLoop fuel st acc := by
  cases fuel with
  | zero => rfl
  | succ m =>
    have hskip : skipWs (c :: st) = skipWs st := by
      simp only [skipWs]
      simp [hc]
    simp only [parseListLoop, hskip]

/-- The rendering of a good tree starts with a character that is neither
whitespace nor a closing parenthesis. -/
theorem render_head_good (e : Expression) (hg : goodTree e = true) :
    ∃ c cs', (render e).data = c :: cs' ∧ c.isWhitespace = false ∧ c ≠ ')' := by
  cases e with
  | Atom s =>
    rw [goodTree_atom, goodAtom] at hg
    simp only [Bool.and_eq_true] at hg
    obtain ⟨h1, h2⟩ := hg
    cases hs : s.data with
    | nil => rw [hs] at h1; simp at h1
    | cons c cs' =>
      rw [hs, List.all_cons] at h2
      simp only [Bool.and_eq_true] at h2
      have hc := h2.1
      simp only [goodChar, Bool.and_eq_true, Bool.not_eq_true',
        decide_eq_false_iff_not] at hc
      exact ⟨c, cs', by simpa using hs, hc.1.1.1, hc.1.2⟩
  | List es =>
    refine ⟨'(', (renderList es).data ++ [')'], ?_, by decide, by decide⟩
    simp [String.data_append]
  | Blank => simp [goodTree] at hg
  | BlankSeq => simp [goodTree] at hg
  | BlankNullSeq => simp [goodTree] at hg
  | Pattern s => simp [goodTree] at hg
  | PatternSeq s => simp [goodTree] at hg
  | PatternNullSeq s => simp [goodTree] at hg

/-- `parse_atomic` consumes exactly a run of atom-legal characters and
stops at the first terminator, producing the accumulated atom. -/
theorem parse_atomic_good (cs : List Char) :
    ∀ (acc : String) (ds : List Char), cs.all goodChar = true →
      chIsTerm ds = true → acc.data ++ cs ≠ [] →
      parse_atomic acc (cs ++ ds) = .ok (.Atom ⟨acc.data ++ cs⟩, ds) := by
  induction cs with
  | nil =>
    intro acc ds hg ht hne
    obtain ⟨l⟩ := acc
    simp only [List.append_nil] at hne ⊢
    have hlne : l ≠ [] := hne
    cases ds with
    | nil =>
      simp only [parse_atomic]
      simp [String.length, List.length_eq_zero, hlne]
    | cons d ds' =>
      rw [chIsTerm] at ht
      simp only [parse_atomic]
      rw [if_pos ht]
      simp [String.length, List.length_eq_zero, hlne]
  | cons c ct ih =>
    intro acc ds hg ht hne
    rw [List.all_cons] at hg
    simp only [Bool.and_eq_true] at hg
    obtain ⟨hgc, hgt⟩ := hg
    simp only [goodChar, Bool.and_eq_true, Bool.not_eq_true',
      decide_eq_false_iff_not] at hgc
    obtain ⟨⟨⟨hws, hop⟩, hcp⟩, hun⟩ := hgc
    rw [List.cons_append]
    have hstep : parse_atomic acc (c :: (ct ++ ds)) =
        parse_atomic (acc.push c) (ct ++ ds) := by
      simp only [parse_atomic]
      rw [if_neg (by simp [hws, hop, hcp]), if_neg (by simp [hun])]
    rw [hstep, ih (acc.push c) ds hgt ht (by simp [String.data_push])]
    simp [String.data_push]

@[simp] theorem chIsWs_nil : chIsWs [] = false := by simp [chIsWs]

@[simp] theorem chIsWs_cons (c : Char) (r : List Char) :
    chIsWs (c :: r) = c.isWhitespace := by
  simp [chIsWs]

@[simp] theorem chIsTerm_nil : chIsTerm [] = true := rfl

@[simp] theorem chIsTerm_cons (c : Char) (r : List Char) :
    chIsTerm (c :: r) = (c.isWhitespace || c = '(' || c = ')') := by
  simp [chIsTerm]

/-- Parsing the rendering of a good tree (respectively of a good child
list followed by the closing parenthesis) succeeds with enough fuel,
consuming exactly the rendering and leaving the following characters
untouched. -/
theorem parse_render_good (n : Nat) :
    (∀ (e : Expression) (ds : List Char), goodTree e = true →
      chIsTerm ds = true → fE e ≤ n →
      parseExpr n ((render e).data ++ ds) = .ok (e, ds))
    ∧ (∀ (cs acc : List Expression) (ds : List Char),
      cs.all goodTree = true → fL cs ≤ n →
      parseListLoop n ((renderList cs).data ++ ')' :: ds) acc =
        .ok (.List (acc ++ cs), ds)) := by
  induction n using Nat.strong_induction_on with
  | _ n IH =>
    constructor
    · intro e ds hg ht hf
      cases e with
      | Atom s =>
        obtain ⟨l⟩ := s
        cases n with
        | zero => simp at hf
        | succ m =>
          rw [goodTree_atom, goodAtom] at hg
          simp only [Bool.and_eq_true] at hg
          obtain ⟨h1, h2⟩ := hg
          cases l with
          | nil => simp at h1
          | cons c cs' =>
            have hcg := h2
            rw [List.all_cons] at hcg
            simp only [Bool.and_eq_true] at hcg
            have hc := hcg.1
            simp only [goodChar, Bool.and_eq_true, Bool.not_eq_true',
              decide_eq_false_iff_not] at hc
            obtain ⟨⟨⟨hws, hop⟩, hcp⟩, hun⟩ := hc
            rw [render_atom]
            show parseExpr (m + 1) ((c :: cs') ++ ds) = _
            rw [List.cons_append]
            simp only [parseExpr]
            rw [if_neg hop, if_neg hcp]
            have hpa := parse_atomic_good (c :: cs') "" ds h2 ht (by simp)
            simpa using hpa
      | List es =>
        cases n with
        | zero => rw [fE_list] at hf; omega
        | succ m =>
          rw [goodTree_list] at hg
          rw [fE_list] at hf
          have hdata : (render (.List es)).data =
              '(' :: ((renderList es).data ++ [')']) := by
            rw [render_list]
            simp [String.data_append]
          rw [hdata, List.cons_append]
          simp only [parseExpr]
          rw [if_pos trivial]
          have hassoc : ((renderList es).data ++ [')']) ++ ds =
              (renderList es).data ++ ')' :: ds := by simp
          rw [hassoc]
          have hloop := (IH m (by omega)).2 es [] ds hg (by omega)
          simpa using hloop
      | Blank => simp [goodTree] at hg
      | BlankSeq => simp [goodTree] at hg
      | BlankNullSeq => simp [goodTree] at hg
      | Pattern s => simp [goodTree] at hg
      | PatternSeq s => simp [goodTree] at hg
      | PatternNullSeq s => simp [goodTree] at hg
    · intro cs acc ds hall hf
      cases cs with
      | nil =>
        cases n with
        | zero => simp at hf
        | succ m =>
          rw [renderList_nil]
          show parseListLoop (m + 1) ([] ++ ')' :: ds) acc = _
          rw [List.nil_append]
          have hskip : skipWs (')' :: ds) = ')' :: ds :=
            skipWs_noop _ (by simp only [chIsWs_cons]; decide)
          simp only [parseListLoop, hskip]
          simp
      | cons e rest =>
        cases n with
        | zero => rw [fL_cons] at hf; omega
        | succ m =>
          rw [List.all_cons] at hall
          simp only [Bool.and_eq_true] at hall
          obtain ⟨hge, hgrest⟩ := hall
          rw [fL_cons] at hf
          obtain ⟨c0, cs0, hdata, hws0, hnp⟩ := render_head_good e hge
          cases rest with
          | nil =>
            rw [fL_nil] at hf
            rw [renderList_single]
            have hstate : (render e).data ++ ')' :: ds =
                c0 :: (cs0 ++ ')' :: ds) := by
              rw [hdata, List.cons_append]
            rw [hstate]
            have hskip : skipWs (c0 :: (cs0 ++ ')' :: ds)) =
                c0 :: (cs0 ++ ')' :: ds) :=
              skipWs_noop _ (by simp [hws0])
            simp only [parseListLoop, hskip]
            rw [if_neg hnp, ← hstate]
            have hE := (IH m (by omega)).1 e (')' :: ds) hge
              (by simp only [chIsTerm_cons]; decide) (by omega)
            rw [hE]
            have hL := (IH m (by omega)).2 [] (acc ++ [e]) ds (by simp)
              (by rw [fL_nil]; omega)
            simpa using hL
          | cons f rest' =>
            rw [renderList_cons]
            have hdata2 : (render e ++ " " ++ renderList (f :: rest')).data =
                (render e).data ++ ' ' :: (renderList (f :: rest')).data := by
              simp [String.data_append]
            rw [hdata2, List.append_assoc]
            have hstate : (render e).data ++
                (' ' :: (renderList (f :: rest')).data ++ ')' :: ds) =
                c0 :: (cs0 ++ (' ' :: (renderList (f :: rest')).data ++ ')' :: ds)) := by
              rw [hdata, List.cons_append]
            rw [hstate]
            have hskip : skipWs (c0 ::
                (cs0 ++ (' ' :: (renderList (f :: rest')).data ++ ')' :: ds))) =
                c0 :: (cs0 ++ (' ' :: (renderList (f :: rest')).data ++ ')' :: ds)) :=
              skipWs_noop _ (by simp [hws0])
            simp only [parseListLoop, hskip]
            rw [if_neg hnp, ← hstate]
            have hE := (IH m (by omega)).1 e
              (' ' :: ((renderList (f :: rest')).data ++ ')' :: ds)) hge
              (by simp only [chIsTerm_cons]; decide) (by omega)
            rw [show (' ' :: (renderList (f :: rest')).data ++ ')' :: ds) =
              (' ' :: ((renderList (f :: rest')).data ++ ')' :: ds)) by simp] at hstate ⊢
            rw [hE]
            show parseListLoop m
              (' ' :: ((renderList (f :: rest')).data ++ ')' :: ds)) (acc ++ [e]) = _
            rw [parseListLoop_ws m ' ' (by decide)]
            have hL := (IH m (by omega)).2 (f :: rest') (acc ++ [e]) ds hgrest (by omega)
            rw [hL]
            simp

/-- C9 (amended): rendering then re-parsing is the identity on marker-free
trees whose atoms are non-empty and drawn from the textual grammar's atom
alphabet (no whitespace, parentheses or underscores).  The restriction on
atom content is forced by the counterexample: `Atom "x_"` is marker-free
but renders to text that re-parses as `Pattern "x"`. -/
theorem roundtrip_good_trees (e : Expression) (hg : goodTree e = true) :
    parse (render e) = .ok e := by
  obtain ⟨c0, cs0, hdata, hws0, hnp⟩ := render_head_good e hg
  have hfuel : fE e ≤ (render e).length + 1 := fE_le e
  have h1 := (parse_render_good ((render e).length + 1)).1 e [] hg (by simp) hfuel
  rw [parse]
  have hskip : skipWs (render e).data = (render e).data := by
    rw [hdata]
    exact skipWs_noop _ (by simp [hws0])
  rw [hskip]
  rw [show (render e).data = (render e).data ++ [] by simp]
  rw [h1]
  rfl

/-- Witness for C9: the amended round trip on the good tree `(a () bc)`. -/
theorem roundtrip_good_trees_witness :
    parse (render (.List [.Atom "a", .List [], .Atom "bc"])) =
      .ok (.List [.Atom "a", .List [], .Atom "bc"]) :=
  roundtrip_good_trees (.List [.Atom "a", .List [], .Atom "bc"])
    (by simp [goodAtom, goodChar])

/-! Sanity examples mirroring the documentation tests and unit tests of the
Rust sources. -/

section DocExamples

example :
    match_pattern (.List [.Atom "x", .List [.Atom "y", .Atom "z"]])
      (.List [.Blank, .Pattern "a"]) =
      some [("a", .Expression (.List [.Atom "y", .Atom "z"]))] := by
  simp [match_pattern, bseqLoop, pseqLoop, insertB, isSeqVar]

-- doc test of `replace`: subject (x z), pattern (x a_), template (y a) => (y z)
example :
    replace (.List [.Atom "x", .Atom "z"]) (.List [.Atom "x", .Pattern "a"])
      (.List [.Atom "y", .Atom "a"]) =
      some (.List [.Atom "y", .Atom "z"]) := by
  simp [replace, match_pattern, bseqLoop, pseqLoop, insertB, isSeqVar, findB]

-- doc test of `replace_all`: ((x r) (x s)) / (x a_) / (y a) => ((y r) (y s))
example :
    replace_all (.List [.List [.Atom "x", .Atom "r"], .List [.Atom "x", .Atom "s"]])
      (.List [.Atom "x", .Pattern "a"]) (.List [.Atom "y", .Atom "a"]) =
      .List [.List [.Atom "y", .Atom "r"], .List [.Atom "y", .Atom "s"]] := by
  simp [replace_all, replace_rec, replace_recList, match_pattern, bseqLoop,
    pseqLoop, insertB, isSeqVar, findB]

-- parser doc test: "(a b (c d))" parses and renders back
example :
    parse "(a b (c d))" =
      .ok (.List [.Atom "a", .Atom "b", .List [.Atom "c", .Atom "d"]]) := by
  rfl

example : parse "" = .error (.SyntaxError .EmptyInput) := by rfl
example : parse "(a " = .error (.SyntaxError .UnbalancedParens) := by rfl
example : parse "x____" = .error (.SyntaxError .InvalidPattern) := by rfl
example : parse "a b" = .ok (.Atom "a") := by rfl
example : parse "(a) (b)" = .ok (.List [.Atom "a"]) := by rfl
example : parse "x_" = .ok (.Pattern "x") := by rfl
example : parse "(_ a__ b___)" =
    .ok (.List [.Blank, .PatternSeq "a", .PatternNullSeq "b"]) := by rfl

example :
    render (.List [.Atom "a", .Atom "b", .List [.Atom "c", .Atom "d"]]) =
      "(a b (c d))" := by
  simp

end DocExamples

end Ers
